import Mathlib

/-!
PsyDoom simplified GPU: colour model and video memory.

A shallow embedding of `simple_gpu/Gpu.h`.  Machine integers are natural
numbers (or integers for signed fields) with explicit truncation where a C++
conversion narrows a value.  The inline members of `Color16` and `Color24F` are
translated from the header; the functions that the header only declares are
modelled from the specification and marked as such.
-/

namespace Gpu

/-! ## Machine integer helpers -/

/-- Conversion of an integer value to `uint16_t` (truncation to 16 bits). -/
def u16 (n : Nat) : Nat := n % 65536

/-- Conversion of an integer value to `uint8_t` (truncation to 8 bits). -/
def u8 (n : Nat) : Nat := n % 256

/-- The original VRAM width (in 16-bit pixels) for the PS1. -/
def PS1_VRAM_W : Nat := 1024

/-- The original VRAM height (in 16-bit pixels) for the PS1. -/
def PS1_VRAM_H : Nat := 512

/-! ## Color24F -/

/-- A 24-bit RGB888 colour with each component in 1.7 fixed point format; `128` is
full strength.  The union of the header is represented by its component view. -/
structure Color24F where
  r : Nat
  g : Nat
  b : Nat
  x : Nat
deriving DecidableEq, Repr

/-- The constructor `Color24F(r, g, b)`: the padding component is zero initialised. -/
def Color24F.rgb (r g b : Nat) : Color24F := ⟨u8 r, u8 g, u8 b, 0⟩

/-! ## Color16 -/

/-- A 15-bit TBGR1555 colour: the field `bits` is a `uint16_t`. -/
structure Color16 where
  bits : Nat
deriving DecidableEq, Repr

/-- The member `getR`: `bits & 0x1F`. -/
def Color16.getR (c : Color16) : Nat := u16 (c.bits &&& 0x1F)

/-- The member `getG`: `(bits >> 5) & 0x1F`. -/
def Color16.getG (c : Color16) : Nat := u16 ((c.bits >>> 5) &&& 0x1F)

/-- The member `getB`: `(bits >> 10) & 0x1F`. -/
def Color16.getB (c : Color16) : Nat := u16 ((c.bits >>> 10) &&& 0x1F)

/-- The member `getT`: `bits >> 15`. -/
def Color16.getT (c : Color16) : Nat := u16 (c.bits >>> 15)

/-- The member `setRGB`: keeps the top bit and installs the three components, which
are assumed to be in range. -/
def Color16.setRGB (c : Color16) (r5 g5 b5 : Nat) : Color16 :=
  let bits1 := u16 (c.bits &&& 0x8000)
  ⟨u16 (bits1 ||| (r5 ||| (g5 <<< 5) ||| (b5 <<< 10)))⟩

/-- The four argument `Color16::make`: the operands are promoted to `int`, combined,
and the result is narrowed to the 16-bit field. -/
def Color16.make (r5 g5 b5 t1 : Nat) : Color16 :=
  ⟨u16 (r5 ||| (g5 <<< 5) ||| (b5 <<< 10) ||| (t1 <<< 15))⟩

/-- The three argument `Color16::make`: the semi transparency flag is not set. -/
def Color16.make3 (r5 g5 b5 : Nat) : Color16 :=
  ⟨u16 (r5 ||| (g5 <<< 5) ||| (b5 <<< 10))⟩

/-! ## Enumerations -/

/-- Blending mode between foreground and background colours. -/
inductive BlendMode where
  | Alpha50
  | Add
  | Subtract
  | Add25
deriving DecidableEq, Repr

/-- Texture format used by the GPU. -/
inductive TexFmt where
  | Bpp4
  | Bpp8
  | Bpp16
deriving DecidableEq, Repr

/-- What type of drawing to do. -/
inductive DrawMode where
  | Colored
  | ColoredBlended
  | Textured
  | TexturedBlended
deriving DecidableEq, Repr

/-! ## The GPU core -/

/-- The GPU device.  `pRam` is the VRAM buffer seen as a map from the linear pixel
index to the stored 16-bit word; the other fields are the registers of the header. -/
structure Core where
  pRam : Nat → Nat
  ramPixelW : Nat
  ramPixelH : Nat
  ramXMask : Nat
  ramYMask : Nat
  drawOffsetX : Int
  drawOffsetY : Int
  drawAreaLx : Nat
  drawAreaRx : Nat
  drawAreaTy : Nat
  drawAreaBy : Nat
  displayAreaX : Nat
  displayAreaY : Nat
  displayAreaW : Nat
  displayAreaH : Nat
  texPageX : Nat
  texPageY : Nat
  texPageXMask : Nat
  texPageYMask : Nat
  texWinX : Nat
  texWinY : Nat
  texWinXMask : Nat
  texWinYMask : Nat
  blendMode : BlendMode
  texFmt : TexFmt
  clutX : Nat
  clutY : Nat
  bDisableMasking : Bool
  clutCacheFmt : TexFmt
  clutCacheX : Nat
  clutCacheY : Nat
  clutCache : List Color16

/-- The linear VRAM index of the pixel at 16-bit coordinates `(x, y)`: both
coordinates are wrapped with the masks of the core before addressing. -/
def vramIndex (core : Core) (x y : Nat) : Nat :=
  (u16 y &&& core.ramYMask) * core.ramPixelW + (u16 x &&& core.ramXMask)

/-- Modelled from the spec: the body of `vramReadU16` is missing (the header only
declares it).  The read applies the wrap masks and then addresses the linear
buffer. -/
def vramReadU16 (core : Core) (x y : Nat) : Nat :=
  core.pRam (vramIndex core x y)

/-- Modelled from the spec: the body of `vramWriteU16` is missing (the header only
declares it).  The write applies the wrap masks and then stores the 16-bit value in
the linear buffer. -/
def vramWriteU16 (core : Core) (x y value : Nat) : Core :=
  { core with pRam := fun i => if i = vramIndex core x y then u16 value else core.pRam i }

/-- Modelled from the spec: the body of `isPixelInDrawArea` is missing.  The draw area
is the rectangle `[drawAreaLx, drawAreaRx] x [drawAreaTy, drawAreaBy]` with inclusive
bounds; `x` and `y` are 16-bit pixel coordinates. -/
def isPixelInDrawArea (core : Core) (x y : Nat) : Bool :=
  decide (core.drawAreaLx ≤ x ∧ x ≤ core.drawAreaRx ∧ core.drawAreaTy ≤ y ∧ y ≤ core.drawAreaBy)

/-! ## Colour arithmetic -/

/-- Modelled from the spec: the per channel formula of `colorBlend`, whose body is
missing.  `Alpha50` is `(bg + fg) / 2` rounded down, `Add` is `bg + fg` saturating at
31, `Subtract` is `bg - fg` saturating at 0 and `Add25` is `bg + fg/4` saturating
at 31. -/
def blendChannel (mode : BlendMode) (bg fg : Nat) : Nat :=
  match mode with
  | BlendMode.Alpha50 => (bg + fg) / 2
  | BlendMode.Add => min (bg + fg) 31
  | BlendMode.Subtract => Int.toNat (max ((bg : Int) - (fg : Int)) 0)
  | BlendMode.Add25 => min (bg + fg / 4) 31

/-- Modelled from the spec: `colorBlend`, whose body is missing, composites the
foreground onto the background channel by channel.  The spec gives no rule for the
semi transparency bit of the result; the model leaves it clear. -/
def colorBlend (bg fg : Color16) (mode : BlendMode) : Color16 :=
  Color16.make3
    (blendChannel mode bg.getR fg.getR)
    (blendChannel mode bg.getG fg.getG)
    (blendChannel mode bg.getB fg.getB)

/-- Modelled from the spec: the per channel formula of `colorMul`, whose body is
missing: texel channel times shade channel in 1.7 fixed point, that is divided by 128,
clamped to `[0, 31]`. -/
def mulChannel (texel shade : Nat) : Nat := min (texel * shade / 128) 31

/-- Modelled from the spec: `colorMul`, whose body is missing, modulates a texel by a
shading colour channel by channel.  The spec gives no rule for the semi transparency
bit of the result; the model leaves it clear. -/
def colorMul (color1 : Color16) (color2 : Color24F) : Color16 :=
  Color16.make3
    (mulChannel color1.getR color2.r)
    (mulChannel color1.getG color2.g)
    (mulChannel color1.getB color2.b)

/-! ## CLUT cache, initialisation and clearing -/

/-- Modelled from the spec: `updateClutCache`, whose body is missing, reads 256
consecutive 16-bit entries from VRAM starting at `(clutX, clutY)` into the cache and
records `(texFmt, clutX, clutY)` as the cache key; it always reads again. -/
def updateClutCache (core : Core) : Core :=
  { core with
    clutCache := (List.range 256).map
      (fun i => Color16.mk (vramReadU16 core (core.clutX + i) core.clutY))
    clutCacheFmt := core.texFmt
    clutCacheX := core.clutX
    clutCacheY := core.clutY }

/-- Doubling loop used to round a size up to a power of two; the counter bounds the
number of doublings so that the result fits a 16-bit field. -/
def ceilPow2Aux : Nat → Nat → Nat → Nat
  | 0, p, _ => p
  | steps + 1, p, n => if n ≤ p then p else ceilPow2Aux steps (2 * p) n

/-- Rounds `n` up to a power of two, at most `0x8000`. -/
def ceilPow2 (n : Nat) : Nat := ceilPow2Aux 15 1 n

/-- Modelled from the spec: `initCore`, whose body is missing, sizes VRAM from the given
width and height rounded to powers of two and derives the wrap masks.  The spec names
no initial value for the other registers, which are left as they are; the fresh VRAM
is zero filled. -/
def initCore (core : Core) (ramPixelW ramPixelH : Nat) : Core :=
  let w := ceilPow2 (u16 ramPixelW)
  let h := ceilPow2 (u16 ramPixelH)
  { core with
    pRam := fun _ => 0
    ramPixelW := w
    ramPixelH := h
    ramXMask := w - 1
    ramYMask := h - 1 }

/-- One row of `clearRect`: writes `value` at `(x + i, y)` for every `i < w`. -/
def clearRow (core : Core) (value x y w : Nat) : Core :=
  (List.range w).foldl (fun c i => vramWriteU16 c (x + i) y value) core

/-- Modelled from the spec: `clearRect`, whose body is missing, fills the rectangle of
`w` by `h` pixels at `(x, y)` with one colour by direct VRAM writes; the draw area is
not consulted. -/
def clearRect (core : Core) (color : Color16) (x y w h : Nat) : Core :=
  (List.range h).foldl (fun c j => clearRow c color.bits x (y + j) w) core

/-! ## Drawing primitives -/

/-- A rectangle primitive. -/
structure DrawRect where
  x : Int
  y : Int
  w : Nat
  h : Nat
  u : Nat
  v : Nat
  color : Color24F
deriving DecidableEq, Repr

/-- A flat shaded triangle primitive. -/
structure DrawTriangle where
  x1 : Int
  y1 : Int
  u1 : Int
  v1 : Int
  x2 : Int
  y2 : Int
  u2 : Int
  v2 : Int
  x3 : Int
  y3 : Int
  u3 : Int
  v3 : Int
  color : Color24F
deriving DecidableEq, Repr

/-- Whether a draw mode composites with the current VRAM content. -/
def DrawMode.isBlended : DrawMode → Bool
  | DrawMode.Colored => false
  | DrawMode.ColoredBlended => true
  | DrawMode.Textured => false
  | DrawMode.TexturedBlended => true

/-- The source colour computation of a draw call (flat colour, interpolated colour or
modulated texel), as a function of the core and the pixel; `none` stands for a pixel
discarded by texture masking. -/
abbrev PixelSource := Core → Int → Int → Option Color16

/-- The integers `lo, lo + 1, ..., lo + n - 1`. -/
def intRange (lo : Int) (n : Nat) : List Int := (List.range n).map (fun (i : Nat) => lo + (i : Int))

/-- The pixels of the half open box `[x0, x0 + w) x [y0, y0 + h)`, row by row. -/
def pixelGrid (x0 : Int) (w : Nat) (y0 : Int) (h : Nat) : List (Int × Int) :=
  (intRange y0 h).flatMap (fun y => (intRange x0 w).map (fun x => (x, y)))

/-- Modelled from the spec: steps 4, 7 and 8 of the common rasterizer shape, whose code
is missing.  A candidate pixel outside the draw area is rejected; otherwise the source
colour is computed, composited with the VRAM content when the mode blends, and written
through the wrapped addressing path. -/
def drawPixel (mode : DrawMode) (src : PixelSource) (core : Core) (p : Int × Int) : Core :=
  if 0 ≤ p.1 ∧ 0 ≤ p.2 ∧ isPixelInDrawArea core p.1.toNat p.2.toNat = true then
    match src core p.1 p.2 with
    | none => core
    | some fg =>
      let out :=
        if mode.isBlended then
          colorBlend (Color16.mk (vramReadU16 core p.1.toNat p.2.toNat)) fg core.blendMode
        else fg
      vramWriteU16 core p.1.toNat p.2.toNat out.bits
  else core

/-- Modelled from the spec: a draw call walks the footprint of its primitive (the
candidate pixels that passed the inclusion test) and handles each pixel in turn. -/
def drawFootprint (mode : DrawMode) (src : PixelSource) (core : Core)
    (footprint : List (Int × Int)) : Core :=
  footprint.foldl (drawPixel mode src) core

/-- The footprint pixels that survive clipping against the draw area. -/
def clipToDrawArea (core : Core) (footprint : List (Int × Int)) : List (Int × Int) :=
  footprint.filter
    (fun p => decide (0 ≤ p.1 ∧ 0 ≤ p.2 ∧ isPixelInDrawArea core p.1.toNat p.2.toNat = true))

/-- Modelled from the spec: the footprint of a rectangle, whose rasterizer is missing:
the geometry is translated by the draw offset and the inclusion test is the half open
interval in both axes. -/
def rectFootprint (core : Core) (rect : DrawRect) : List (Int × Int) :=
  pixelGrid (rect.x + core.drawOffsetX) rect.w (rect.y + core.drawOffsetY) rect.h

/-- Modelled from the spec: `draw` for a `DrawRect`, whose body is missing. -/
def drawRect (mode : DrawMode) (src : PixelSource) (core : Core) (rect : DrawRect) : Core :=
  drawFootprint mode src core (rectFootprint core rect)

/-- The edge function of the directed edge `a -> b` at the point `p`. -/
def edgeFn (ax ay bx bY px py : Int) : Int :=
  (bx - ax) * (py - ay) - (bY - ay) * (px - ax)

/-- Whether the directed edge `a -> b` of a triangle whose interior has positive edge
functions is a top edge (horizontal, interior below) or a left edge (going up). -/
def isTopLeftEdge (ax ay bx bY : Int) : Bool :=
  decide ((bY = ay ∧ ax < bx) ∨ bY < ay)

/-- The sign test of one edge with the top-left tie-break: a point strictly on the
interior side passes, a point on the edge passes only on a top or left edge. -/
def edgeAccepts (ax ay bx bY px py : Int) : Bool :=
  decide (0 < edgeFn ax ay bx bY px py) ||
    (decide (edgeFn ax ay bx bY px py = 0) && isTopLeftEdge ax ay bx bY)

/-- The inclusion test of a triangle whose vertices are ordered so that the interior
has positive edge functions. -/
def insideOriented (ax ay bx bY cx cy px py : Int) : Bool :=
  edgeAccepts ax ay bx bY px py && edgeAccepts bx bY cx cy px py &&
    edgeAccepts cx cy ax ay px py

/-- Modelled from the spec: the triangle inclusion test, whose code is missing: an
edge-function sign test with a top-left tie-break rule.  Either winding is accepted;
a triangle without area has no pixels. -/
def insideTriangle (ax ay bx bY cx cy px py : Int) : Bool :=
  if 0 < edgeFn ax ay bx bY cx cy then insideOriented ax ay bx bY cx cy px py
  else if edgeFn ax ay bx bY cx cy < 0 then insideOriented ax ay cx cy bx bY px py
  else false

/-- The candidate pixels of a triangle with the given (translated) vertices: the pixels
of the bounding box that pass the inclusion test. -/
def trianglePixels (ax ay bx bY cx cy : Int) : List (Int × Int) :=
  let minX := min ax (min bx cx)
  let maxX := max ax (max bx cx)
  let minY := min ay (min bY cy)
  let maxY := max ay (max bY cy)
  (pixelGrid minX (maxX - minX + 1).toNat minY (maxY - minY + 1).toNat).filter
    (fun p => insideTriangle ax ay bx bY cx cy p.1 p.2)

/-- Modelled from the spec: the footprint of a triangle, whose rasterizer is missing:
the vertices are translated by the draw offset, the candidates are the pixels of the
bounding box and the inclusion test is `insideTriangle`. -/
def triangleFootprint (core : Core) (t : DrawTriangle) : List (Int × Int) :=
  trianglePixels (t.x1 + core.drawOffsetX) (t.y1 + core.drawOffsetY)
    (t.x2 + core.drawOffsetX) (t.y2 + core.drawOffsetY)
    (t.x3 + core.drawOffsetX) (t.y3 + core.drawOffsetY)

/-- Modelled from the spec: `draw` for a `DrawTriangle`, whose body is missing. -/
def drawTriangle (mode : DrawMode) (src : PixelSource) (core : Core) (t : DrawTriangle) :
    Core :=
  drawFootprint mode src core (triangleFootprint core t)

/-- The vertices of a triangle primitive. -/
def DrawTriangle.verts (t : DrawTriangle) : List (Int × Int) :=
  [(t.x1, t.y1), (t.x2, t.y2), (t.x3, t.y3)]

/-- The triangles `t1` and `t2` split the rectangle `rect` along one of its two
diagonals: each has three corners of the rectangle as vertices, in any order, and the
two share a diagonal. -/
def SplitsRect (rect : DrawRect) (t1 t2 : DrawTriangle) : Prop :=
  let a : Int × Int := (rect.x, rect.y)
  let b : Int × Int := (rect.x + rect.w, rect.y)
  let c : Int × Int := (rect.x, rect.y + rect.h)
  let d : Int × Int := (rect.x + rect.w, rect.y + rect.h)
  (t1.verts.Perm [a, b, c] ∧ t2.verts.Perm [b, d, c]) ∨
  (t1.verts.Perm [b, d, c] ∧ t2.verts.Perm [a, b, c]) ∨
  (t1.verts.Perm [a, b, d] ∧ t2.verts.Perm [a, d, c]) ∨
  (t1.verts.Perm [a, d, c] ∧ t2.verts.Perm [a, b, d])

/-- Two cores address VRAM alike: same width and same wrap masks. -/
def SameGeom (c core : Core) : Prop :=
  c.ramPixelW = core.ramPixelW ∧ c.ramXMask = core.ramXMask ∧ c.ramYMask = core.ramYMask

/-- Two cores agree on the addressing registers and on the draw area. -/
def SameFrame (c core : Core) : Prop :=
  SameGeom c core ∧ c.drawAreaLx = core.drawAreaLx ∧ c.drawAreaRx = core.drawAreaRx ∧
    c.drawAreaTy = core.drawAreaTy ∧ c.drawAreaBy = core.drawAreaBy

/-- A core with a small VRAM of 8 by 4 pixels and a draw area of 4 by 2 pixels, used to
evaluate the definitions on concrete inputs. -/
def sampleCore : Core :=
  { pRam := fun i => i
    ramPixelW := 8
    ramPixelH := 4
    ramXMask := 7
    ramYMask := 3
    drawOffsetX := 0
    drawOffsetY := 0
    drawAreaLx := 1
    drawAreaRx := 4
    drawAreaTy := 1
    drawAreaBy := 2
    displayAreaX := 0
    displayAreaY := 0
    displayAreaW := 8
    displayAreaH := 4
    texPageX := 0
    texPageY := 0
    texPageXMask := 7
    texPageYMask := 3
    texWinX := 0
    texWinY := 0
    texWinXMask := 7
    texWinYMask := 3
    blendMode := BlendMode.Alpha50
    texFmt := TexFmt.Bpp8
    clutX := 0
    clutY := 3
    bDisableMasking := false
    clutCacheFmt := TexFmt.Bpp16
    clutCacheX := 0
    clutCacheY := 0
    clutCache := [] }

end Gpu

/-!
Utility functions and game tick timing of `d_main.cpp`.

Memory is a map from byte addresses to bytes and a pointer is an address.  A string that
is only read is the list of the bytes found from its pointer on; reading at the end of
the list yields the terminator `0`.
-/

namespace Doom

/-- Conversion of an integer value to `uint32_t` (truncation to 32 bits). -/
def u32 (n : Nat) : Nat := n % 4294967296

/-- Byte addressed memory. -/
abbrev Mem := Nat → Nat

/-- A one byte store `*p = value`. -/
def storeByte (mem : Mem) (addr value : Nat) : Mem :=
  fun i => if i = addr then value else mem i

/-- A store of a 32-bit word, least significant byte first. -/
def storeWord (mem : Mem) (addr word : Nat) : Mem :=
  storeByte (storeByte (storeByte (storeByte mem addr (word % 256))
    (addr + 1) (word >>> 8 % 256)) (addr + 2) (word >>> 16 % 256)) (addr + 3) (word >>> 24 % 256)

/-- The first loop of `D_memset`: fills byte by byte up to the next aligned 32-bit
address.  The result is `Sum.inl` when the function returns from inside the loop and
`Sum.inr` with the memory, the pointer and the bytes left when the loop ends. -/
def memsetAlign (fillByte : Nat) : Nat → Mem → Nat → Mem ⊕ (Mem × Nat × Nat)
  | 0, mem, pDstByte =>
    if pDstByte &&& 3 ≠ 0 then Sum.inl mem else Sum.inr (mem, pDstByte, 0)
  | bytesLeft + 1, mem, pDstByte =>
    if pDstByte &&& 3 ≠ 0 then
      memsetAlign fillByte bytesLeft (storeByte mem pDstByte fillByte) (pDstByte + 1)
    else Sum.inr (mem, pDstByte, bytesLeft + 1)

/-- The eight word stores of one pass of the second loop of `D_memset`. -/
def storeWords8 (mem : Mem) (pDstWords fillWord : Nat) : Mem :=
  storeWord (storeWord (storeWord (storeWord (storeWord (storeWord (storeWord (storeWord mem
    pDstWords fillWord) (pDstWords + 4) fillWord) (pDstWords + 8) fillWord)
    (pDstWords + 12) fillWord) (pDstWords + 16) fillWord) (pDstWords + 20) fillWord)
    (pDstWords + 24) fillWord) (pDstWords + 28) fillWord

/-- The second loop of `D_memset`: while at least 32 bytes are left, fills 32 bytes with
eight word stores. -/
def memsetWords (fillWord : Nat) : Nat → Mem → Nat → Mem × Nat × Nat
  | bytesLeft + 32, mem, pDstByte =>
    memsetWords fillWord bytesLeft (storeWords8 mem pDstByte fillWord) (pDstByte + 32)
  | bytesLeft, mem, pDstByte => (mem, pDstByte, bytesLeft)

/-- The third loop of `D_memset`: fills the remaining bytes one by one. -/
def memsetTail (fillByte : Nat) : Nat → Mem → Nat → Mem
  | 0, mem, _ => mem
  | bytesLeft + 1, mem, pDstByte =>
    memsetTail fillByte bytesLeft (storeByte mem pDstByte fillByte) (pDstByte + 1)

/-- The function `D_memset`: sets `count` bytes at `pDst` to `fillByte`. -/
def D_memset (mem : Mem) (pDst fillByte count : Nat) : Mem :=
  match memsetAlign fillByte (u32 count) mem pDst with
  | Sum.inl mem1 => mem1
  | Sum.inr (mem1, p1, left1) =>
    let fb32 := u32 fillByte
    let fillWord := u32 (u32 (fb32 <<< 24) ||| u32 (fb32 <<< 16) ||| u32 (fb32 <<< 8) ||| fb32)
    let r := memsetWords fillWord left1 mem1 p1
    memsetTail fillByte r.2.2 r.1 r.2.1

/-- The loop of `D_memcpy`. -/
def memcpyLoop : Nat → Mem → Nat → Nat → Mem
  | 0, mem, _, _ => mem
  | bytesLeft + 1, mem, pDstByte, pSrcByte =>
    memcpyLoop bytesLeft (storeByte mem pDstByte (mem pSrcByte)) (pDstByte + 1) (pSrcByte + 1)

/-- The function `D_memcpy`: copies `numBytes` bytes from `pSrc` to `pDst`. -/
def D_memcpy (mem : Mem) (pDst pSrc numBytes : Nat) : Mem :=
  memcpyLoop (u32 numBytes) mem pDst pSrc

/-- The loop of `D_strncpy`: copies one character, then stops when it was the terminator
or when no more characters are allowed. -/
def strncpyLoop : Nat → Mem → Nat → Nat → Mem
  | 0, mem, _, _ => mem
  | maxChars + 1, mem, dst, src =>
    let c := mem src
    let mem1 := storeByte mem dst c
    if c = 0 then mem1 else strncpyLoop maxChars mem1 (dst + 1) (src + 1)

/-- The function `D_strncpy`: copies up to `maxChars` characters from `src` to `dst`. -/
def D_strncpy (mem : Mem) (dst src maxChars : Nat) : Mem :=
  strncpyLoop (u32 maxChars) mem dst src

/-- The function `D_strncasecmp`.  The flag `psydoomMods` stands for the build macro
`PSYDOOM_MODS`, which selects the test made on `maxCount` after each equal character.
The counter is an integer: it leaves the 32-bit range only for strings that are longer
than memory. -/
def D_strncasecmp (psydoomMods : Bool) : List Nat → List Nat → Int → Int
  | c1 :: rest1, c2 :: rest2, maxCount =>
    if c1 ≠ 0 ∧ c2 ≠ 0 then
      if c1 ≠ c2 then 1
      else if (if psydoomMods then maxCount - 1 ≤ 0 else maxCount - 1 = 0) then 0
      else D_strncasecmp psydoomMods rest1 rest2 (maxCount - 1)
    else if c1 = c2 then 1 else 0
  | str1, str2, _ => if str1.headD 0 = str2.headD 0 then 1 else 0

/-- The character written by one pass of `D_strupr`: a lower case letter loses 32. -/
def upperChar (c : Nat) : Nat := if 97 ≤ c ∧ c ≤ 122 then c - 32 else c

/-- The function `D_strupr`: makes the string upper case in place, up to its
terminator. -/
def D_strupr : List Nat → List Nat
  | [] => []
  | c :: rest => if c ≠ 0 then upperChar c :: D_strupr rest else c :: rest

/-- Length of a string: the number of characters before the terminator. -/
def strlen : List Nat → Nat
  | [] => 0
  | c :: rest => if c ≠ 0 then strlen rest + 1 else 0

/-- The two timing settings read by the game loop. -/
structure Settings where
  bUsePalTimings : Bool
  bUseDemoTimings : Bool
deriving DecidableEq, Repr

/-- Conversion of an integer value to `int32_t`: the value modulo `2^32` in the range
from `-2^31` to `2^31 - 1`.  This is what the compiled 32-bit addition leaves in an
`int32_t` variable; the language itself does not define a signed overflow. -/
def toInt32 (x : Int) : Int := (x + 2147483648) % 4294967296 - 2147483648

/-- The timing globals of the game loop.  The three counters are `int32_t` variables:
every write to them goes through `toInt32` or stores a value that is in range. -/
structure TickState where
  gTicCon : Int
  gLastTgtGameTicCount : Int
  gGameTic : Int
  gbIsLongGameTick : Bool
deriving DecidableEq, Repr

/-- The function `D_GameTickDurationVaries`. -/
def D_GameTickDurationVaries (settings : Settings) : Bool :=
  settings.bUsePalTimings && !settings.bUseDemoTimings

/-- The function `D_UpdateIsLongGameTick`. -/
def D_UpdateIsLongGameTick (settings : Settings) (st : TickState) : TickState :=
  if D_GameTickDurationVaries settings = true then
    { st with gbIsLongGameTick := decide (Int.tmod st.gTicCon 3 = 0) }
  else
    { st with gbIsLongGameTick := false }

/-- The timer reset at the start of `MiniLoop`, followed by the call that starts the
first game tick. -/
def miniLoopReset (settings : Settings) (st : TickState) : TickState :=
  D_UpdateIsLongGameTick settings
    { st with gGameTic := 0, gTicCon := 0, gLastTgtGameTicCount := 0 }

/-- The game tick advance of one pass of `MiniLoop` in which inputs and timing are
updated: `elapsedVBlanks` is `gPlayersElapsedVBlanks[0]` and `vblankToTicShift` is the
constant `VBLANK_TO_TIC_SHIFT`, which is declared in another file.  The addition to
`gTicCon` and the increment of `gGameTic` are 32-bit operations. -/
def advanceGameTick (settings : Settings) (vblankToTicShift : Nat) (elapsedVBlanks : Int)
    (st : TickState) : TickState :=
  let gTicCon := toInt32 (st.gTicCon + elapsedVBlanks)
  let tgtGameTicCount :=
    if settings.bUsePalTimings = true then Int.tdiv gTicCon 3 else gTicCon >>> vblankToTicShift
  if st.gLastTgtGameTicCount < tgtGameTicCount then
    D_UpdateIsLongGameTick settings
      { st with
        gTicCon := gTicCon
        gLastTgtGameTicCount := tgtGameTicCount
        gGameTic := toInt32 (st.gGameTic + 1) }
  else
    { st with gTicCon := gTicCon }

/-- The timing globals after the reset and `n` passes that each add two elapsed
vblanks. -/
def runTicks (settings : Settings) (vblankToTicShift : Nat) (st : TickState) : Nat → TickState
  | 0 => miniLoopReset settings st
  | n + 1 => advanceGameTick settings vblankToTicShift 2 (runTicks settings vblankToTicShift st n)

/-- A game tick starts at pass `n`: at the reset, or when the pass increments
`gGameTic`. -/
def startsGameTick (settings : Settings) (vblankToTicShift : Nat) (st : TickState) (n : Nat) :
    Prop :=
  n = 0 ∨ (runTicks settings vblankToTicShift st n).gGameTic =
    (runTicks settings vblankToTicShift st (n - 1)).gGameTic + 1

/-- PAL timings without demo timings. -/
def palSettings : Settings := { bUsePalTimings := true, bUseDemoTimings := false }

/-- A memory that holds the string `AB` with its terminator at address 0 and the byte
`7` elsewhere. -/
def sampleMem : Mem := fun i => if i = 0 then 65 else if i = 1 then 66 else if i = 2 then 0 else 7

end Doom

namespace Gpu

/-! ## Bit level facts about the packed colour -/

theorem or_shiftLeft_eq_add (a b k : Nat) (h : a < 2 ^ k) : a ||| (b <<< k) = a + b * 2 ^ k := by
  rw [Nat.or_comm, Nat.shiftLeft_eq, Nat.mul_comm b, ← Nat.mul_add_lt_is_or h]
  omega

theorem pack_eq_sum (r g b t : Nat) (hr : r ≤ 31) (hg : g ≤ 31) (hb : b ≤ 31) :
    r ||| (g <<< 5) ||| (b <<< 10) ||| (t <<< 15) = r + g * 32 + b * 1024 + t * 32768 := by
  rw [or_shiftLeft_eq_add r g 5 (by norm_num; omega)]
  rw [or_shiftLeft_eq_add _ b 10 (by norm_num; omega)]
  rw [or_shiftLeft_eq_add _ t 15 (by norm_num; omega)]
  norm_num

theorem pack3_eq_sum (r g b : Nat) (hr : r ≤ 31) (hg : g ≤ 31) :
    r ||| (g <<< 5) ||| (b <<< 10) = r + g * 32 + b * 1024 := by
  rw [or_shiftLeft_eq_add r g 5 (by norm_num; omega)]
  rw [or_shiftLeft_eq_add _ b 10 (by norm_num; omega)]
  norm_num

theorem and_31 (n : Nat) : n &&& 0x1F = n % 32 :=
  Nat.and_pow_two_sub_one_eq_mod n 5

theorem getR_eq (c : Color16) : c.getR = c.bits % 32 := by
  unfold Color16.getR u16
  rw [and_31]; omega

theorem getG_eq (c : Color16) : c.getG = c.bits / 32 % 32 := by
  unfold Color16.getG u16
  rw [and_31, Nat.shiftRight_eq_div_pow]; norm_num; omega

theorem getB_eq (c : Color16) : c.getB = c.bits / 1024 % 32 := by
  unfold Color16.getB u16
  rw [and_31, Nat.shiftRight_eq_div_pow]; norm_num; omega

theorem getT_eq (c : Color16) : c.getT = c.bits / 32768 % 65536 := by
  unfold Color16.getT u16
  rw [Nat.shiftRight_eq_div_pow]

/-- C2: for `r, g, b` in `[0, 31]` and `t` in `{0, 1}` the colour `Color16::make(r, g, b, t)`
reads back `r`, `g`, `b` and `t` through `getR`, `getG`, `getB` and `getT`, and its 16 bits
are exactly `r | g << 5 | b << 10 | t << 15`. -/
theorem make_roundtrip (r g b t : Nat) (hr : r ≤ 31) (hg : g ≤ 31) (hb : b ≤ 31) (ht : t ≤ 1) :
    (Color16.make r g b t).getR = r ∧ (Color16.make r g b t).getG = g ∧
    (Color16.make r g b t).getB = b ∧ (Color16.make r g b t).getT = t ∧
    (Color16.make r g b t).bits = r ||| (g <<< 5) ||| (b <<< 10) ||| (t <<< 15) := by
  have hbits : (Color16.make r g b t).bits = r + g * 32 + b * 1024 + t * 32768 := by
    simp only [Color16.make, u16]
    rw [pack_eq_sum r g b t hr hg hb]
    omega
  rw [getR_eq, getG_eq, getB_eq, getT_eq, hbits, pack_eq_sum r g b t hr hg hb]
  refine ⟨by omega, by omega, by omega, by omega, rfl⟩

/-- Witness for `make_roundtrip` at `r = 31`, `g = 7`, `b = 20`, `t = 1`. -/
theorem make_roundtrip_witness :
    (Color16.make 31 7 20 1).getR = 31 ∧ (Color16.make 31 7 20 1).getG = 7 ∧
    (Color16.make 31 7 20 1).getB = 20 ∧ (Color16.make 31 7 20 1).getT = 1 ∧
    (Color16.make 31 7 20 1).bits = 31 ||| (7 <<< 5) ||| (20 <<< 10) ||| (1 <<< 15) :=
  make_roundtrip 31 7 20 1 (by decide) (by decide) (by decide) (by decide)

/-! ## Video memory -/

theorem u16_mask_pow2 (n k : Nat) (hk : k ≤ 16) : u16 n &&& (2 ^ k - 1) = n % 2 ^ k := by
  unfold u16
  rw [Nat.and_pow_two_sub_one_eq_mod]
  have h : (2 : Nat) ^ k ∣ 65536 := by
    have : (65536 : Nat) = 2 ^ 16 := by norm_num
    rw [this]
    exact Nat.pow_dvd_pow 2 hk
  exact Nat.mod_mod_of_dvd n h

theorem pow2_lt_65536 (k : Nat) (h : 2 ^ k < 65536) : k ≤ 16 := by
  by_contra hc
  have h1 : (2 : Nat) ^ 16 ≤ 2 ^ k := Nat.pow_le_pow_right (by norm_num) (by omega)
  norm_num at h1
  omega

theorem vramRead_write_same (core : Core) (x y v : Nat) :
    vramReadU16 (vramWriteU16 core x y v) x y = u16 v := by
  simp [vramReadU16, vramWriteU16, vramIndex]

/-- C1: for a core whose VRAM width and height are powers of two with the masks
`W - 1` and `H - 1`, a read after a write of a 16-bit value at the same
coordinates returns that value, and reads are periodic with period `W` in `x` and `H`
in `y`, the shifted coordinate being taken as a 16-bit value.  The coordinates `x` and
`y` are arbitrary, in particular every 16-bit pair is covered. -/
theorem vram_roundtrip_periodic (core : Core) (kw kh : Nat)
    (hW : core.ramPixelW = 2 ^ kw) (hH : core.ramPixelH = 2 ^ kh)
    (hW16 : core.ramPixelW < 65536) (hH16 : core.ramPixelH < 65536)
    (hXM : core.ramXMask = core.ramPixelW - 1) (hYM : core.ramYMask = core.ramPixelH - 1)
    (x y v : Nat) (hv : v < 65536) :
    vramReadU16 (vramWriteU16 core x y v) x y = v ∧
    vramReadU16 core x y = vramReadU16 core (u16 (x + core.ramPixelW)) y ∧
    vramReadU16 core x y = vramReadU16 core x (u16 (y + core.ramPixelH)) := by
  have hkw : kw ≤ 16 := pow2_lt_65536 kw (hW ▸ hW16)
  have hkh : kh ≤ 16 := pow2_lt_65536 kh (hH ▸ hH16)
  refine ⟨?_, ?_, ?_⟩
  · rw [vramRead_write_same]
    exact Nat.mod_eq_of_lt hv
  · unfold vramReadU16 vramIndex
    rw [hXM, hW, u16_mask_pow2 x kw hkw, u16_mask_pow2 _ kw hkw]
    have h : u16 (x + 2 ^ kw) % 2 ^ kw = x % 2 ^ kw := by
      have h2 := u16_mask_pow2 (x + 2 ^ kw) kw hkw
      rw [Nat.and_pow_two_sub_one_eq_mod] at h2
      rw [h2, Nat.add_mod_right]
    rw [h]
  · unfold vramReadU16 vramIndex
    rw [hYM, hH, u16_mask_pow2 y kh hkh, u16_mask_pow2 _ kh hkh]
    have h : u16 (y + 2 ^ kh) % 2 ^ kh = y % 2 ^ kh := by
      have h2 := u16_mask_pow2 (y + 2 ^ kh) kh hkh
      rw [Nat.and_pow_two_sub_one_eq_mod] at h2
      rw [h2, Nat.add_mod_right]
    rw [h]

/-- Witness for `vram_roundtrip_periodic` on the 8 by 4 sample core at `(9, 6)`. -/
theorem vram_roundtrip_periodic_witness :
    vramReadU16 (vramWriteU16 sampleCore 9 6 40000) 9 6 = 40000 ∧
    vramReadU16 sampleCore 9 6 = vramReadU16 sampleCore (u16 (9 + sampleCore.ramPixelW)) 6 ∧
    vramReadU16 sampleCore 9 6 = vramReadU16 sampleCore 9 (u16 (6 + sampleCore.ramPixelH)) :=
  vram_roundtrip_periodic sampleCore 3 2 rfl rfl (by decide) (by decide) rfl rfl 9 6 40000
    (by decide)

/-! ## Colour arithmetic -/

theorem make3_bits (r g b : Nat) (hr : r ≤ 31) (hg : g ≤ 31) (hb : b ≤ 31) :
    (Color16.make3 r g b).bits = r + g * 32 + b * 1024 := by
  simp only [Color16.make3, u16]
  rw [pack3_eq_sum r g b hr hg]
  omega

theorem make3_channels (r g b : Nat) (hr : r ≤ 31) (hg : g ≤ 31) (hb : b ≤ 31) :
    (Color16.make3 r g b).getR = r ∧ (Color16.make3 r g b).getG = g ∧
    (Color16.make3 r g b).getB = b := by
  rw [getR_eq, getG_eq, getB_eq, make3_bits r g b hr hg hb]
  refine ⟨by omega, by omega, by omega⟩

theorem getR_le (c : Color16) : c.getR ≤ 31 := by rw [getR_eq]; omega

theorem getG_le (c : Color16) : c.getG ≤ 31 := by rw [getG_eq]; omega

theorem getB_le (c : Color16) : c.getB ≤ 31 := by rw [getB_eq]; omega

theorem blendChannel_le (mode : BlendMode) (bg fg : Nat) (hb : bg ≤ 31) (hf : fg ≤ 31) :
    blendChannel mode bg fg ≤ 31 := by
  cases mode <;> simp only [blendChannel] <;> omega

theorem colorBlend_channels (bg fg : Color16) (mode : BlendMode) :
    (colorBlend bg fg mode).getR = blendChannel mode bg.getR fg.getR ∧
    (colorBlend bg fg mode).getG = blendChannel mode bg.getG fg.getG ∧
    (colorBlend bg fg mode).getB = blendChannel mode bg.getB fg.getB :=
  make3_channels _ _ _
    (blendChannel_le mode _ _ (getR_le bg) (getR_le fg))
    (blendChannel_le mode _ _ (getG_le bg) (getG_le fg))
    (blendChannel_le mode _ _ (getB_le bg) (getB_le fg))

theorem subtract_cast (bg fg : Nat) :
    ((blendChannel BlendMode.Subtract bg fg : Nat) : Int) = max ((bg : Int) - (fg : Int)) 0 := by
  simp only [blendChannel]
  omega

/-- C3: for every background and foreground colour (their channels are in `[0, 31]`) and
every blend mode, each channel of `colorBlend` is: `Alpha50`: `(bg + fg) / 2` rounded
down; `Add`: `min (bg + fg) 31`; `Subtract`: `max (bg - fg) 0`, computed over the
integers; `Add25`: `min (bg + fg / 4) 31`. -/
theorem colorBlend_formula (bg fg : Color16) :
    ((colorBlend bg fg BlendMode.Alpha50).getR = (bg.getR + fg.getR) / 2 ∧
     (colorBlend bg fg BlendMode.Alpha50).getG = (bg.getG + fg.getG) / 2 ∧
     (colorBlend bg fg BlendMode.Alpha50).getB = (bg.getB + fg.getB) / 2) ∧
    ((colorBlend bg fg BlendMode.Add).getR = min (bg.getR + fg.getR) 31 ∧
     (colorBlend bg fg BlendMode.Add).getG = min (bg.getG + fg.getG) 31 ∧
     (colorBlend bg fg BlendMode.Add).getB = min (bg.getB + fg.getB) 31) ∧
    ((((colorBlend bg fg BlendMode.Subtract).getR : Nat) : Int)
        = max ((bg.getR : Int) - (fg.getR : Int)) 0 ∧
     (((colorBlend bg fg BlendMode.Subtract).getG : Nat) : Int)
        = max ((bg.getG : Int) - (fg.getG : Int)) 0 ∧
     (((colorBlend bg fg BlendMode.Subtract).getB : Nat) : Int)
        = max ((bg.getB : Int) - (fg.getB : Int)) 0) ∧
    ((colorBlend bg fg BlendMode.Add25).getR = min (bg.getR + fg.getR / 4) 31 ∧
     (colorBlend bg fg BlendMode.Add25).getG = min (bg.getG + fg.getG / 4) 31 ∧
     (colorBlend bg fg BlendMode.Add25).getB = min (bg.getB + fg.getB / 4) 31) := by
  obtain ⟨a1, a2, a3⟩ := colorBlend_channels bg fg BlendMode.Alpha50
  obtain ⟨b1, b2, b3⟩ := colorBlend_channels bg fg BlendMode.Add
  obtain ⟨c1, c2, c3⟩ := colorBlend_channels bg fg BlendMode.Subtract
  obtain ⟨d1, d2, d3⟩ := colorBlend_channels bg fg BlendMode.Add25
  refine ⟨⟨?_, ?_, ?_⟩, ⟨?_, ?_, ?_⟩, ⟨?_, ?_, ?_⟩, ⟨?_, ?_, ?_⟩⟩
  · rw [a1]; rfl
  · rw [a2]; rfl
  · rw [a3]; rfl
  · rw [b1]; rfl
  · rw [b2]; rfl
  · rw [b3]; rfl
  · rw [c1]; exact subtract_cast _ _
  · rw [c2]; exact subtract_cast _ _
  · rw [c3]; exact subtract_cast _ _
  · rw [d1]; rfl
  · rw [d2]; rfl
  · rw [d3]; rfl

/-- C4: for every blend mode and every pair of colours, each of the R, G and B channels
of `colorBlend` is in `[0, 31]`; the bound comes from the saturating channel formula and
not from the masks of the accessors, as the packed word is exactly
`r + 32 g + 1024 b` for the three blended channel values. -/
theorem colorBlend_range (bg fg : Color16) (mode : BlendMode) :
    (colorBlend bg fg mode).getR ≤ 31 ∧ (colorBlend bg fg mode).getG ≤ 31 ∧
    (colorBlend bg fg mode).getB ≤ 31 ∧
    blendChannel mode bg.getR fg.getR ≤ 31 ∧ blendChannel mode bg.getG fg.getG ≤ 31 ∧
    blendChannel mode bg.getB fg.getB ≤ 31 ∧
    (colorBlend bg fg mode).bits =
      blendChannel mode bg.getR fg.getR + blendChannel mode bg.getG fg.getG * 32 +
        blendChannel mode bg.getB fg.getB * 1024 := by
  have hr := blendChannel_le mode _ _ (getR_le bg) (getR_le fg)
  have hg := blendChannel_le mode _ _ (getG_le bg) (getG_le fg)
  have hb := blendChannel_le mode _ _ (getB_le bg) (getB_le fg)
  exact ⟨getR_le _, getG_le _, getB_le _, hr, hg, hb, make3_bits _ _ _ hr hg hb⟩

theorem mulChannel_le (c s : Nat) : mulChannel c s ≤ 31 := by
  unfold mulChannel; omega

theorem mulChannel_unity (c : Nat) (hc : c ≤ 31) : mulChannel c 128 = c := by
  unfold mulChannel
  rw [Nat.mul_div_cancel c (by norm_num : 0 < 128)]
  omega

theorem colorMul_channels (texel : Color16) (shade : Color24F) :
    (colorMul texel shade).getR = mulChannel texel.getR shade.r ∧
    (colorMul texel shade).getG = mulChannel texel.getG shade.g ∧
    (colorMul texel shade).getB = mulChannel texel.getB shade.b :=
  make3_channels _ _ _ (mulChannel_le _ _) (mulChannel_le _ _) (mulChannel_le _ _)

/-- C5: each channel of `colorMul texel shade` is `min (texel * shade / 128) 31` with the
division rounding down; a unity shade `(128, 128, 128)` leaves the three channels of the
texel unchanged; and every channel of the result is at most 31, so that an overbright
shade saturates instead of wrapping, as for a white texel under the shade
`(255, 255, 255)`. -/
theorem colorMul_formula (texel : Color16) (shade : Color24F) :
    ((colorMul texel shade).getR = min (texel.getR * shade.r / 128) 31 ∧
     (colorMul texel shade).getG = min (texel.getG * shade.g / 128) 31 ∧
     (colorMul texel shade).getB = min (texel.getB * shade.b / 128) 31) ∧
    ((colorMul texel (Color24F.rgb 128 128 128)).getR = texel.getR ∧
     (colorMul texel (Color24F.rgb 128 128 128)).getG = texel.getG ∧
     (colorMul texel (Color24F.rgb 128 128 128)).getB = texel.getB) ∧
    ((colorMul texel shade).getR ≤ 31 ∧ (colorMul texel shade).getG ≤ 31 ∧
     (colorMul texel shade).getB ≤ 31) ∧
    colorMul (Color16.make3 31 31 31) (Color24F.rgb 255 255 255) = Color16.make3 31 31 31 := by
  refine ⟨colorMul_channels texel shade, ?_, ⟨getR_le _, getG_le _, getB_le _⟩, by decide⟩
  obtain ⟨h1, h2, h3⟩ := colorMul_channels texel (Color24F.rgb 128 128 128)
  have e : Color24F.rgb 128 128 128 = ⟨128, 128, 128, 0⟩ := by decide
  rw [e] at h1 h2 h3
  rw [e, h1, h2, h3]
  exact ⟨mulChannel_unity _ (getR_le _), mulChannel_unity _ (getG_le _),
    mulChannel_unity _ (getB_le _)⟩

/-! ## CLUT cache -/

theorem updateClutCache_entry (core : Core) (i : Nat) (hi : i < 256) :
    (updateClutCache core).clutCache[i]? =
      some (Color16.mk (vramReadU16 core (core.clutX + i) core.clutY)) := by
  simp [updateClutCache, List.getElem?_map, List.getElem?_range hi]

/-- C9: immediately after `updateClutCache` the cache has 256 entries, entry `i` is the
VRAM word read at `(clutX + i, clutY)` for every `i < 256`, and the recorded key is the
current `(texFmt, clutX, clutY)`; once `clutX` is changed to another value without a new
update the recorded key differs from the current one. -/
theorem updateClutCache_spec (core : Core) (i : Nat) (hi : i < 256) (newX : Nat)
    (hnew : newX ≠ core.clutX) :
    ((updateClutCache core).clutCache.length = 256 ∧
     (updateClutCache core).clutCache[i]? =
       some (Color16.mk (vramReadU16 (updateClutCache core)
         ((updateClutCache core).clutX + i) (updateClutCache core).clutY))) ∧
    ((updateClutCache core).clutCacheFmt, (updateClutCache core).clutCacheX,
      (updateClutCache core).clutCacheY) =
      ((updateClutCache core).texFmt, (updateClutCache core).clutX,
        (updateClutCache core).clutY) ∧
    (({ updateClutCache core with clutX := newX }).clutCacheFmt,
      ({ updateClutCache core with clutX := newX }).clutCacheX,
      ({ updateClutCache core with clutX := newX }).clutCacheY) ≠
      (({ updateClutCache core with clutX := newX }).texFmt,
        ({ updateClutCache core with clutX := newX }).clutX,
        ({ updateClutCache core with clutX := newX }).clutY) := by
  refine ⟨⟨by simp [updateClutCache], ?_⟩, rfl, ?_⟩
  · rw [updateClutCache_entry core i hi]
    rfl
  · intro h
    simp only [updateClutCache, Prod.mk.injEq] at h
    exact hnew h.2.1.symm

/-- Witness for `updateClutCache_spec` on the sample core, entry 5, with `clutX` changed
from 0 to 1. -/
theorem updateClutCache_spec_witness :
    ((updateClutCache sampleCore).clutCache.length = 256 ∧
     (updateClutCache sampleCore).clutCache[5]? =
       some (Color16.mk (vramReadU16 (updateClutCache sampleCore)
         ((updateClutCache sampleCore).clutX + 5) (updateClutCache sampleCore).clutY))) ∧
    ((updateClutCache sampleCore).clutCacheFmt, (updateClutCache sampleCore).clutCacheX,
      (updateClutCache sampleCore).clutCacheY) =
      ((updateClutCache sampleCore).texFmt, (updateClutCache sampleCore).clutX,
        (updateClutCache sampleCore).clutY) ∧
    (({ updateClutCache sampleCore with clutX := 1 }).clutCacheFmt,
      ({ updateClutCache sampleCore with clutX := 1 }).clutCacheX,
      ({ updateClutCache sampleCore with clutX := 1 }).clutCacheY) ≠
      (({ updateClutCache sampleCore with clutX := 1 }).texFmt,
        ({ updateClutCache sampleCore with clutX := 1 }).clutX,
        ({ updateClutCache sampleCore with clutX := 1 }).clutY) :=
  updateClutCache_spec sampleCore 5 (by decide) 1 (by decide)

/-! ## Clearing -/

theorem SameGeom.index {c core : Core} (h : SameGeom c core) (a b : Nat) :
    vramIndex c a b = vramIndex core a b := by
  obtain ⟨h1, h2, h3⟩ := h
  simp only [vramIndex, h1, h2, h3]

theorem clearRow_spec (core : Core) (v x y : Nat) (n : Nat) :
    SameGeom (clearRow core v x y n) core ∧
    (∀ k, (clearRow core v x y n).pRam k = u16 v ∨
      (clearRow core v x y n).pRam k = core.pRam k) ∧
    (∀ i, i < n → (clearRow core v x y n).pRam (vramIndex core (x + i) y) = u16 v) := by
  induction n with
  | zero =>
    refine ⟨⟨rfl, rfl, rfl⟩, fun k => Or.inr rfl, ?_⟩
    intro i hi
    omega
  | succ n ih =>
    obtain ⟨hg, hk, hi⟩ := ih
    have hstep : clearRow core v x y (n + 1) =
        vramWriteU16 (clearRow core v x y n) (x + n) y v := by
      simp [clearRow, List.range_succ, List.foldl_append]
    rw [hstep]
    refine ⟨⟨hg.1, hg.2.1, hg.2.2⟩, ?_, ?_⟩
    · intro k
      simp only [vramWriteU16]
      by_cases hk2 : k = vramIndex (clearRow core v x y n) (x + n) y
      · left; simp [hk2]
      · rw [if_neg hk2]; exact hk k
    · intro i hi2
      simp only [vramWriteU16]
      by_cases hk2 : vramIndex core (x + i) y = vramIndex (clearRow core v x y n) (x + n) y
      · simp [hk2]
      · rw [if_neg hk2]
        have hne : i ≠ n := by
          intro e
          apply hk2
          rw [e, hg.index]
        exact hi i (by omega)

theorem clearRect_spec (core : Core) (color : Color16) (x y w : Nat) (n : Nat) :
    SameGeom (clearRect core color x y w n) core ∧
    (∀ k, (clearRect core color x y w n).pRam k = u16 color.bits ∨
      (clearRect core color x y w n).pRam k = core.pRam k) ∧
    (∀ j, j < n → ∀ i, i < w →
      (clearRect core color x y w n).pRam (vramIndex core (x + i) (y + j)) = u16 color.bits) := by
  induction n with
  | zero =>
    refine ⟨⟨rfl, rfl, rfl⟩, fun k => Or.inr rfl, ?_⟩
    intro j hj
    omega
  | succ n ih =>
    obtain ⟨hg, hk, hi⟩ := ih
    have hstep : clearRect core color x y w (n + 1) =
        clearRow (clearRect core color x y w n) color.bits x (y + n) w := by
      simp [clearRect, List.range_succ, List.foldl_append]
    rw [hstep]
    obtain ⟨rg, rk, ri⟩ := clearRow_spec (clearRect core color x y w n) color.bits x (y + n) w
    refine ⟨⟨rg.1.trans hg.1, rg.2.1.trans hg.2.1, rg.2.2.trans hg.2.2⟩, ?_, ?_⟩
    · intro k
      rcases rk k with h | h
      · exact Or.inl h
      · rw [h]; exact hk k
    · intro j hj i hiw
      by_cases hjn : j = n
      · subst hjn
        have := ri i hiw
        rw [hg.index] at this
        exact this
      · rcases rk (vramIndex core (x + i) (y + j)) with h | h
        · exact h
        · rw [h]; exact hi j (by omega) i hiw

theorem clearRect_read (core : Core) (color : Color16) (x y w h i j : Nat)
    (hi : i < w) (hj : j < h) :
    vramReadU16 (clearRect core color x y w h) (x + i) (y + j) = u16 color.bits := by
  obtain ⟨hg, _, hc⟩ := clearRect_spec core color x y w h
  unfold vramReadU16
  rw [hg.index]
  exact hc j hj i hi

/-- C10: after `initCore(core, 1024, 512)` and `clearRect(core, C, 0, 0, 1024, 512)` every
read at `(x, y)` with `x < 1024` and `y < 512` returns the 16-bit colour `C`, whatever
values the four draw area registers were given in between. -/
theorem clearRect_fills_vram (core : Core) (c : Color16) (hc : c.bits < 65536)
    (lx rx ty bY : Nat) (x y : Nat) (hx : x < 1024) (hy : y < 512) :
    vramReadU16
      (clearRect
        { initCore core 1024 512 with
          drawAreaLx := lx, drawAreaRx := rx, drawAreaTy := ty, drawAreaBy := bY }
        c 0 0 1024 512) x y = c.bits := by
  have h := clearRect_read
    { initCore core 1024 512 with
      drawAreaLx := lx, drawAreaRx := rx, drawAreaTy := ty, drawAreaBy := bY }
    c 0 0 1024 512 x y hx hy
  simp only [Nat.zero_add] at h
  rw [h]
  exact Nat.mod_eq_of_lt hc

/-- Witness for `clearRect_fills_vram`: the pixel `(1023, 511)` after clearing to the
colour `0x7FFF` with an empty draw area. -/
theorem clearRect_fills_vram_witness :
    vramReadU16
      (clearRect
        { initCore sampleCore 1024 512 with
          drawAreaLx := 5, drawAreaRx := 4, drawAreaTy := 3, drawAreaBy := 2 }
        (Color16.mk 32767) 0 0 1024 512) 1023 511 = (Color16.mk 32767).bits :=
  clearRect_fills_vram sampleCore (Color16.mk 32767) (by decide) 5 4 3 2 1023 511
    (by decide) (by decide)

/-! ## The draw area as a frame for every draw call -/

theorem SameFrame.inArea {c core : Core} (h : SameFrame c core) (a b : Nat) :
    isPixelInDrawArea c a b = isPixelInDrawArea core a b := by
  obtain ⟨_, h1, h2, h3, h4⟩ := h
  simp only [isPixelInDrawArea, h1, h2, h3, h4]

theorem drawPixel_frame (mode : DrawMode) (src : PixelSource) (c : Core) (p : Int × Int) :
    SameFrame (drawPixel mode src c p) c ∧
    ∀ k, (drawPixel mode src c p).pRam k = c.pRam k ∨
      ∃ a b, isPixelInDrawArea c a b = true ∧ k = vramIndex c a b := by
  unfold drawPixel
  by_cases hcond : 0 ≤ p.1 ∧ 0 ≤ p.2 ∧ isPixelInDrawArea c p.1.toNat p.2.toNat = true
  · rw [if_pos hcond]
    cases hsrc : src c p.1 p.2 with
    | none => exact ⟨⟨⟨rfl, rfl, rfl⟩, rfl, rfl, rfl, rfl⟩, fun k => Or.inl rfl⟩
    | some fg =>
      refine ⟨⟨⟨rfl, rfl, rfl⟩, rfl, rfl, rfl, rfl⟩, ?_⟩
      intro k
      simp only [vramWriteU16]
      by_cases hk : k = vramIndex c p.1.toNat p.2.toNat
      · exact Or.inr ⟨_, _, hcond.2.2, hk⟩
      · rw [if_neg hk]; exact Or.inl rfl
  · rw [if_neg hcond]
    exact ⟨⟨⟨rfl, rfl, rfl⟩, rfl, rfl, rfl, rfl⟩, fun k => Or.inl rfl⟩

theorem SameFrame.trans {a b c : Core} (h1 : SameFrame a b) (h2 : SameFrame b c) :
    SameFrame a c :=
  ⟨⟨h1.1.1.trans h2.1.1, h1.1.2.1.trans h2.1.2.1, h1.1.2.2.trans h2.1.2.2⟩,
    h1.2.1.trans h2.2.1, h1.2.2.1.trans h2.2.2.1, h1.2.2.2.1.trans h2.2.2.2.1,
    h1.2.2.2.2.trans h2.2.2.2.2⟩

theorem drawFootprint_frame (mode : DrawMode) (src : PixelSource) (fp : List (Int × Int)) :
    ∀ core : Core, SameFrame (drawFootprint mode src core fp) core ∧
    ∀ k, (drawFootprint mode src core fp).pRam k = core.pRam k ∨
      ∃ a b, isPixelInDrawArea core a b = true ∧ k = vramIndex core a b := by
  induction fp with
  | nil =>
    intro core
    exact ⟨⟨⟨rfl, rfl, rfl⟩, rfl, rfl, rfl, rfl⟩, fun k => Or.inl rfl⟩
  | cons p rest ih =>
    intro core
    obtain ⟨hf1, hk1⟩ := drawPixel_frame mode src core p
    obtain ⟨hf2, hk2⟩ := ih (drawPixel mode src core p)
    have hstep : drawFootprint mode src core (p :: rest) =
        drawFootprint mode src (drawPixel mode src core p) rest := rfl
    rw [hstep]
    refine ⟨hf2.trans hf1, ?_⟩
    intro k
    rcases hk2 k with h | ⟨a, b, hab, hk⟩
    · rw [h]; exact hk1 k
    · right
      refine ⟨a, b, ?_, ?_⟩
      · rw [← hf1.inArea]; exact hab
      · rw [hk, hf1.1.index]

theorem drawFootprint_clipped_nil (mode : DrawMode) (src : PixelSource) (core : Core)
    (fp : List (Int × Int)) (h : clipToDrawArea core fp = []) :
    drawFootprint mode src core fp = core := by
  induction fp with
  | nil => rfl
  | cons p rest ih =>
    have hall : ∀ q ∈ p :: rest,
        ¬ (0 ≤ q.1 ∧ 0 ≤ q.2 ∧ isPixelInDrawArea core q.1.toNat q.2.toNat = true) := by
      intro q hq
      have := List.filter_eq_nil_iff.mp h q hq
      simpa using this
    have hp : drawPixel mode src core p = core := by
      unfold drawPixel
      rw [if_neg (hall p (List.mem_cons_self _ _))]
    have hrest : clipToDrawArea core rest = [] := by
      apply List.filter_eq_nil_iff.mpr
      intro q hq
      have := hall q (List.mem_cons_of_mem _ hq)
      simpa using this
    have hstep : drawFootprint mode src core (p :: rest) =
        drawFootprint mode src (drawPixel mode src core p) rest := rfl
    rw [hstep, hp]
    exact ih hrest

theorem vramIndex_inside (core : Core) (kw kh : Nat)
    (hW : core.ramPixelW = 2 ^ kw) (hH : core.ramPixelH = 2 ^ kh)
    (hW16 : core.ramPixelW < 65536) (hH16 : core.ramPixelH < 65536)
    (hXM : core.ramXMask = core.ramPixelW - 1) (hYM : core.ramYMask = core.ramPixelH - 1)
    (x y : Nat) (hx : x < core.ramPixelW) (hy : y < core.ramPixelH) :
    vramIndex core x y = y * core.ramPixelW + x := by
  have hkw : kw ≤ 16 := pow2_lt_65536 kw (hW ▸ hW16)
  have hkh : kh ≤ 16 := pow2_lt_65536 kh (hH ▸ hH16)
  have hx2 : x < 2 ^ kw := hW ▸ hx
  have hy2 : y < 2 ^ kh := hH ▸ hy
  unfold vramIndex
  rw [hXM, hYM, hW, hH, u16_mask_pow2 x kw hkw, u16_mask_pow2 y kh hkh,
    Nat.mod_eq_of_lt hx2, Nat.mod_eq_of_lt hy2]

theorem linear_index_inj (w x y a b : Nat) (hx : x < w) (ha : a < w)
    (h : y * w + x = b * w + a) : x = a ∧ y = b := by
  have hw : 0 < w := by omega
  have h1 : (y * w + x) % w = x := by
    rw [Nat.mul_comm, Nat.mul_add_mod, Nat.mod_eq_of_lt hx]
  have h2 : (b * w + a) % w = a := by
    rw [Nat.mul_comm, Nat.mul_add_mod, Nat.mod_eq_of_lt ha]
  have h3 : (y * w + x) / w = y := by
    rw [Nat.mul_comm, Nat.mul_add_div hw, Nat.div_eq_of_lt hx, Nat.add_zero]
  have h4 : (b * w + a) / w = b := by
    rw [Nat.mul_comm, Nat.mul_add_div hw, Nat.div_eq_of_lt ha, Nat.add_zero]
  constructor
  · rw [← h1, h, h2]
  · rw [← h3, h, h4]

/-- C7: for every draw mode, every source colour computation and every footprint (hence
every primitive kind, in particular rectangles and triangles), a VRAM pixel `(x, y)`
outside the inclusive draw area reads the same after the draw call as before; and a
`DrawRect` none of whose pixels is in the draw area leaves the core, and so the whole
VRAM, unchanged.  The core meets the invariants of the header: VRAM dimensions that are
powers of two with the masks `W - 1` and `H - 1`, and a draw area that does not reach
past the VRAM edges. -/
theorem draw_preserves_outside (mode : DrawMode) (src : PixelSource) (core : Core)
    (kw kh : Nat) (hW : core.ramPixelW = 2 ^ kw) (hH : core.ramPixelH = 2 ^ kh)
    (hW16 : core.ramPixelW < 65536) (hH16 : core.ramPixelH < 65536)
    (hXM : core.ramXMask = core.ramPixelW - 1) (hYM : core.ramYMask = core.ramPixelH - 1)
    (hRx : core.drawAreaRx < core.ramPixelW) (hBy : core.drawAreaBy < core.ramPixelH)
    (fp : List (Int × Int)) (rect : DrawRect) (t : DrawTriangle) (x y : Nat)
    (hx : x < core.ramPixelW) (hy : y < core.ramPixelH)
    (hout : isPixelInDrawArea core x y = false)
    (outside : DrawRect) (houtside : clipToDrawArea core (rectFootprint core outside) = []) :
    vramReadU16 (drawFootprint mode src core fp) x y = vramReadU16 core x y ∧
    vramReadU16 (drawRect mode src core rect) x y = vramReadU16 core x y ∧
    vramReadU16 (drawTriangle mode src core t) x y = vramReadU16 core x y ∧
    drawRect mode src core outside = core := by
  have key : ∀ l : List (Int × Int),
      vramReadU16 (drawFootprint mode src core l) x y = vramReadU16 core x y := by
    intro l
    obtain ⟨hf, hk⟩ := drawFootprint_frame mode src l core
    unfold vramReadU16
    rw [hf.1.index]
    rcases hk (vramIndex core x y) with h | ⟨a, b, hab, hidx⟩
    · exact h
    · exfalso
      have hab2 := hab
      simp only [isPixelInDrawArea, decide_eq_true_eq] at hab2
      have ha : a < core.ramPixelW := by omega
      have hb : b < core.ramPixelH := by omega
      rw [vramIndex_inside core kw kh hW hH hW16 hH16 hXM hYM x y hx hy,
        vramIndex_inside core kw kh hW hH hW16 hH16 hXM hYM a b ha hb] at hidx
      obtain ⟨e1, e2⟩ := linear_index_inj _ x y a b hx ha hidx
      rw [e1, e2, hab] at hout
      exact Bool.noConfusion hout
  exact ⟨key fp, key _, key _, drawFootprint_clipped_nil mode src core _ houtside⟩

/-- Witness for `draw_preserves_outside` on the 8 by 4 sample core, whose draw area is
`[1, 4] x [1, 2]`: the pixel `(0, 0)` is outside, and the rectangle at `(5, 0)` of size
2 by 1 has no pixel in the draw area. -/
theorem draw_preserves_outside_witness :
    vramReadU16 (drawFootprint DrawMode.ColoredBlended (fun _ _ _ => some (Color16.mk 31))
      sampleCore [(0, 0), (1, 1), (2, 2)]) 0 0 = vramReadU16 sampleCore 0 0 ∧
    vramReadU16 (drawRect DrawMode.ColoredBlended (fun _ _ _ => some (Color16.mk 31))
      sampleCore ⟨0, 0, 3, 3, 0, 0, Color24F.rgb 128 128 128⟩) 0 0 =
        vramReadU16 sampleCore 0 0 ∧
    vramReadU16 (drawTriangle DrawMode.ColoredBlended (fun _ _ _ => some (Color16.mk 31))
      sampleCore ⟨0, 0, 0, 0, 4, 0, 0, 0, 0, 4, 0, 0, Color24F.rgb 128 128 128⟩) 0 0 =
        vramReadU16 sampleCore 0 0 ∧
    drawRect DrawMode.ColoredBlended (fun _ _ _ => some (Color16.mk 31))
      sampleCore ⟨5, 0, 2, 1, 0, 0, Color24F.rgb 128 128 128⟩ = sampleCore :=
  draw_preserves_outside DrawMode.ColoredBlended (fun _ _ _ => some (Color16.mk 31))
    sampleCore 3 2 rfl rfl (by decide) (by decide) rfl rfl (by decide) (by decide)
    [(0, 0), (1, 1), (2, 2)] ⟨0, 0, 3, 3, 0, 0, Color24F.rgb 128 128 128⟩
    ⟨0, 0, 0, 0, 4, 0, 0, 0, 0, 4, 0, 0, Color24F.rgb 128 128 128⟩ 0 0
    (by decide) (by decide) (by decide)
    ⟨5, 0, 2, 1, 0, 0, Color24F.rgb 128 128 128⟩ (by decide)

/-! ## Rasterization of rectangles and triangles -/

theorem mem_intRange (lo : Int) (n : Nat) (z : Int) :
    z ∈ intRange lo n ↔ lo ≤ z ∧ z < lo + n := by
  unfold intRange
  simp only [List.mem_map, List.mem_range]
  constructor
  · rintro ⟨i, hi, rfl⟩
    omega
  · rintro ⟨h1, h2⟩
    refine ⟨(z - lo).toNat, ?_, ?_⟩ <;> omega

theorem mem_pixelGrid (x0 : Int) (w : Nat) (y0 : Int) (h : Nat) (p : Int × Int) :
    p ∈ pixelGrid x0 w y0 h ↔
      (x0 ≤ p.1 ∧ p.1 < x0 + w) ∧ (y0 ≤ p.2 ∧ p.2 < y0 + h) := by
  unfold pixelGrid
  simp only [List.mem_flatMap, List.mem_map, mem_intRange]
  constructor
  · rintro ⟨y, hy, x, hx, rfl⟩
    exact ⟨hx, hy⟩
  · rintro ⟨hx, hy⟩
    exact ⟨p.2, hy, p.1, hx, rfl⟩

theorem nodup_intRange (lo : Int) (n : Nat) : (intRange lo n).Nodup := by
  unfold intRange
  apply List.Nodup.map _ (List.nodup_range n)
  intro a b hab
  simp only at hab
  omega

theorem nodup_pixelGrid (x0 : Int) (w : Nat) (y0 : Int) (h : Nat) :
    (pixelGrid x0 w y0 h).Nodup := by
  unfold pixelGrid
  rw [List.nodup_flatMap]
  constructor
  · intro y _
    apply List.Nodup.map _ (nodup_intRange x0 w)
    intro a b hab
    simp only [Prod.mk.injEq] at hab
    exact hab.1
  · refine List.Pairwise.imp ?_ (nodup_intRange y0 h)
    intro a b hab
    simp only [Function.onFun]
    rw [List.disjoint_left]
    intro q hq1 hq2
    rcases List.mem_map.1 hq1 with ⟨_, _, rfl⟩
    rcases List.mem_map.1 hq2 with ⟨_, _, e⟩
    simp only [Prod.mk.injEq] at e
    exact hab e.2.symm

theorem edgeAccepts_iff (ax ay bx bY px py : Int) :
    edgeAccepts ax ay bx bY px py = true ↔
      0 < edgeFn ax ay bx bY px py ∨
        (edgeFn ax ay bx bY px py = 0 ∧ ((bY = ay ∧ ax < bx) ∨ bY < ay)) := by
  simp [edgeAccepts, isTopLeftEdge]

theorem edge_top (ax ay bx px py : Int) (h : ax < bx) :
    edgeAccepts ax ay bx ay px py = true ↔ ay ≤ py := by
  rw [edgeAccepts_iff]
  have e : edgeFn ax ay bx ay px py = (bx - ax) * (py - ay) := by unfold edgeFn; ring
  have hd : 0 < bx - ax := by omega
  rw [e]
  constructor
  · rintro (h1 | ⟨h1, _⟩)
    · have := (mul_pos_iff_of_pos_left hd).1 h1
      omega
    · rcases mul_eq_zero.1 h1 with h2 | h2 <;> omega
  · intro h1
    rcases eq_or_lt_of_le h1 with h2 | h2
    · right
      refine ⟨?_, Or.inl ⟨rfl, h⟩⟩
      rw [← h2]; simp
    · left
      exact mul_pos hd (by omega)

theorem edge_bottom (ax ay bx px py : Int) (h : bx < ax) :
    edgeAccepts ax ay bx ay px py = true ↔ py < ay := by
  rw [edgeAccepts_iff]
  have e : edgeFn ax ay bx ay px py = (ax - bx) * (ay - py) := by unfold edgeFn; ring
  have hd : 0 < ax - bx := by omega
  rw [e]
  constructor
  · rintro (h1 | ⟨_, h2⟩)
    · have := (mul_pos_iff_of_pos_left hd).1 h1
      omega
    · omega
  · intro h1
    left
    exact mul_pos hd (by omega)

theorem edge_left (ax ay bY px py : Int) (h : bY < ay) :
    edgeAccepts ax ay ax bY px py = true ↔ ax ≤ px := by
  rw [edgeAccepts_iff]
  have e : edgeFn ax ay ax bY px py = (ay - bY) * (px - ax) := by unfold edgeFn; ring
  have hd : 0 < ay - bY := by omega
  rw [e]
  constructor
  · rintro (h1 | ⟨h1, _⟩)
    · have := (mul_pos_iff_of_pos_left hd).1 h1
      omega
    · rcases mul_eq_zero.1 h1 with h2 | h2 <;> omega
  · intro h1
    rcases eq_or_lt_of_le h1 with h2 | h2
    · right
      refine ⟨?_, Or.inr h⟩
      rw [← h2]; simp
    · left
      exact mul_pos hd (by omega)

theorem edge_right (ax ay bY px py : Int) (h : ay < bY) :
    edgeAccepts ax ay ax bY px py = true ↔ px < ax := by
  rw [edgeAccepts_iff]
  have e : edgeFn ax ay ax bY px py = (bY - ay) * (ax - px) := by unfold edgeFn; ring
  have hd : 0 < bY - ay := by omega
  rw [e]
  constructor
  · rintro (h1 | ⟨_, h2⟩)
    · have := (mul_pos_iff_of_pos_left hd).1 h1
      omega
    · omega
  · intro h1
    left
    exact mul_pos hd (by omega)

theorem edge_down (ax ay bx bY px py : Int) (h : ay < bY) :
    edgeAccepts ax ay bx bY px py = true ↔ 0 < edgeFn ax ay bx bY px py := by
  rw [edgeAccepts_iff]
  constructor
  · rintro (h1 | ⟨_, h2⟩)
    · exact h1
    · omega
  · intro h1
    exact Or.inl h1

theorem edge_up (ax ay bx bY px py : Int) (h : bY < ay) :
    edgeAccepts ax ay bx bY px py = true ↔ 0 ≤ edgeFn ax ay bx bY px py := by
  rw [edgeAccepts_iff]
  constructor
  · rintro (h1 | ⟨h1, _⟩)
    · exact le_of_lt h1
    · exact le_of_eq h1.symm
  · intro h1
    rcases eq_or_lt_of_le h1 with h2 | h2
    · exact Or.inr ⟨h2.symm, Or.inr h⟩
    · exact Or.inl h2

theorem insideTriangle_of_pos (ax ay bx bY cx cy px py : Int)
    (h : 0 < edgeFn ax ay bx bY cx cy) :
    insideTriangle ax ay bx bY cx cy px py = insideOriented ax ay bx bY cx cy px py := by
  unfold insideTriangle
  rw [if_pos h]

theorem insideTriangle_of_zero (ax ay bx bY cx cy px py : Int)
    (h : edgeFn ax ay bx bY cx cy = 0) :
    insideTriangle ax ay bx bY cx cy px py = false := by
  unfold insideTriangle
  rw [h]
  simp

theorem insideOriented_iff (ax ay bx bY cx cy px py : Int) :
    insideOriented ax ay bx bY cx cy px py = true ↔
      edgeAccepts ax ay bx bY px py = true ∧ edgeAccepts bx bY cx cy px py = true ∧
        edgeAccepts cx cy ax ay px py = true := by
  unfold insideOriented
  simp only [Bool.and_eq_true, and_assoc]

/-- The upper left triangle `A B C` of the rectangle with corners `A = (X, Y)`,
`B = (X + w, Y)`, `C = (X, Y + h)`, `D = (X + w, Y + h)`. -/
theorem inside_ABC (X Y w h px py : Int) (hw : 0 < w) (hh : 0 < h) :
    insideTriangle X Y (X + w) Y X (Y + h) px py = true ↔
      Y ≤ py ∧ 0 < h * (X + w - px) - w * (py - Y) ∧ X ≤ px := by
  have harea : 0 < edgeFn X Y (X + w) Y X (Y + h) := by
    have e : edgeFn X Y (X + w) Y X (Y + h) = w * h := by unfold edgeFn; ring
    rw [e]; exact mul_pos hw hh
  rw [insideTriangle_of_pos _ _ _ _ _ _ _ _ harea, insideOriented_iff,
    edge_top X Y (X + w) px py (by omega),
    edge_down (X + w) Y X (Y + h) px py (by omega),
    edge_left X (Y + h) Y px py (by omega)]
  have e : edgeFn (X + w) Y X (Y + h) px py = h * (X + w - px) - w * (py - Y) := by
    unfold edgeFn; ring
  rw [e]

/-- The lower right triangle `B D C`. -/
theorem inside_BDC (X Y w h px py : Int) (hw : 0 < w) (hh : 0 < h) :
    insideTriangle (X + w) Y (X + w) (Y + h) X (Y + h) px py = true ↔
      px < X + w ∧ py < Y + h ∧ h * (X + w - px) - w * (py - Y) ≤ 0 := by
  have harea : 0 < edgeFn (X + w) Y (X + w) (Y + h) X (Y + h) := by
    have e : edgeFn (X + w) Y (X + w) (Y + h) X (Y + h) = w * h := by unfold edgeFn; ring
    rw [e]; exact mul_pos hw hh
  rw [insideTriangle_of_pos _ _ _ _ _ _ _ _ harea, insideOriented_iff,
    edge_right (X + w) Y (Y + h) px py (by omega),
    edge_bottom (X + w) (Y + h) X px py (by omega),
    edge_up X (Y + h) (X + w) Y px py (by omega)]
  have e : edgeFn X (Y + h) (X + w) Y px py = - (h * (X + w - px) - w * (py - Y)) := by
    unfold edgeFn; ring
  rw [e]
  constructor
  · rintro ⟨h1, h2, h3⟩
    exact ⟨h1, h2, by omega⟩
  · rintro ⟨h1, h2, h3⟩
    exact ⟨h1, h2, by omega⟩

/-- The upper right triangle `A B D`. -/
theorem inside_ABD (X Y w h px py : Int) (hw : 0 < w) (hh : 0 < h) :
    insideTriangle X Y (X + w) Y (X + w) (Y + h) px py = true ↔
      Y ≤ py ∧ px < X + w ∧ 0 ≤ h * (px - X) - w * (py - Y) := by
  have harea : 0 < edgeFn X Y (X + w) Y (X + w) (Y + h) := by
    have e : edgeFn X Y (X + w) Y (X + w) (Y + h) = w * h := by unfold edgeFn; ring
    rw [e]; exact mul_pos hw hh
  rw [insideTriangle_of_pos _ _ _ _ _ _ _ _ harea, insideOriented_iff,
    edge_top X Y (X + w) px py (by omega),
    edge_right (X + w) Y (Y + h) px py (by omega),
    edge_up (X + w) (Y + h) X Y px py (by omega)]
  have e : edgeFn (X + w) (Y + h) X Y px py = h * (px - X) - w * (py - Y) := by
    unfold edgeFn; ring
  rw [e]

/-- The lower left triangle `A D C`. -/
theorem inside_ADC (X Y w h px py : Int) (hw : 0 < w) (hh : 0 < h) :
    insideTriangle X Y (X + w) (Y + h) X (Y + h) px py = true ↔
      h * (px - X) - w * (py - Y) < 0 ∧ py < Y + h ∧ X ≤ px := by
  have harea : 0 < edgeFn X Y (X + w) (Y + h) X (Y + h) := by
    have e : edgeFn X Y (X + w) (Y + h) X (Y + h) = w * h := by unfold edgeFn; ring
    rw [e]; exact mul_pos hw hh
  rw [insideTriangle_of_pos _ _ _ _ _ _ _ _ harea, insideOriented_iff,
    edge_down X Y (X + w) (Y + h) px py (by omega),
    edge_bottom (X + w) (Y + h) X px py (by omega),
    edge_left X (Y + h) Y px py (by omega)]
  have e : edgeFn X Y (X + w) (Y + h) px py = - (h * (px - X) - w * (py - Y)) := by
    unfold edgeFn; ring
  rw [e]
  constructor
  · rintro ⟨h1, h2, h3⟩
    exact ⟨by omega, h2, h3⟩
  · rintro ⟨h1, h2, h3⟩
    exact ⟨by omega, h2, h3⟩

theorem mem_trianglePixels (ax ay bx bY cx cy : Int) (p : Int × Int) :
    p ∈ trianglePixels ax ay bx bY cx cy ↔
      ((min ax (min bx cx) ≤ p.1 ∧ p.1 ≤ max ax (max bx cx)) ∧
        (min ay (min bY cy) ≤ p.2 ∧ p.2 ≤ max ay (max bY cy))) ∧
      insideTriangle ax ay bx bY cx cy p.1 p.2 = true := by
  simp only [trianglePixels, List.mem_filter, mem_pixelGrid]
  have h1 : (p.1 < min ax (min bx cx) +
      ((max ax (max bx cx) - min ax (min bx cx) + 1).toNat : Int)) ↔
      p.1 ≤ max ax (max bx cx) := by omega
  have h2 : (p.2 < min ay (min bY cy) +
      ((max ay (max bY cy) - min ay (min bY cy) + 1).toNat : Int)) ↔
      p.2 ≤ max ay (max bY cy) := by omega
  rw [h1, h2]

theorem nodup_trianglePixels (ax ay bx bY cx cy : Int) :
    (trianglePixels ax ay bx bY cx cy).Nodup := by
  unfold trianglePixels
  exact List.Nodup.filter _ (nodup_pixelGrid _ _ _ _)

theorem edgeFn_rotate (ax ay bx bY cx cy : Int) :
    edgeFn bx bY cx cy ax ay = edgeFn ax ay bx bY cx cy := by
  unfold edgeFn; ring

theorem edgeFn_swap (ax ay bx bY cx cy : Int) :
    edgeFn ax ay cx cy bx bY = - edgeFn ax ay bx bY cx cy := by
  unfold edgeFn; ring

theorem insideOriented_rotate (ax ay bx bY cx cy px py : Int) :
    insideOriented bx bY cx cy ax ay px py = insideOriented ax ay bx bY cx cy px py := by
  unfold insideOriented
  cases edgeAccepts ax ay bx bY px py <;> cases edgeAccepts bx bY cx cy px py <;>
    cases edgeAccepts cx cy ax ay px py <;> rfl

theorem insideTriangle_rotate (ax ay bx bY cx cy px py : Int) :
    insideTriangle bx bY cx cy ax ay px py = insideTriangle ax ay bx bY cx cy px py := by
  unfold insideTriangle
  rw [edgeFn_rotate, insideOriented_rotate ax ay bx bY cx cy,
    ← insideOriented_rotate bx bY ax ay cx cy]

theorem insideTriangle_swap (ax ay bx bY cx cy px py : Int) :
    insideTriangle ax ay cx cy bx bY px py = insideTriangle ax ay bx bY cx cy px py := by
  unfold insideTriangle
  rw [edgeFn_swap]
  split_ifs <;> first | rfl | (exfalso; omega)

theorem trianglePixels_rotate (ax ay bx bY cx cy : Int) :
    trianglePixels bx bY cx cy ax ay = trianglePixels ax ay bx bY cx cy := by
  have h1 : min bx (min cx ax) = min ax (min bx cx) := by omega
  have h2 : max bx (max cx ax) = max ax (max bx cx) := by omega
  have h3 : min bY (min cy ay) = min ay (min bY cy) := by omega
  have h4 : max bY (max cy ay) = max ay (max bY cy) := by omega
  have hf : (fun p : Int × Int => insideTriangle bx bY cx cy ax ay p.1 p.2) =
      (fun p : Int × Int => insideTriangle ax ay bx bY cx cy p.1 p.2) := by
    funext p
    exact insideTriangle_rotate ax ay bx bY cx cy p.1 p.2
  simp only [trianglePixels, h1, h2, h3, h4, hf]

theorem trianglePixels_swap (ax ay bx bY cx cy : Int) :
    trianglePixels ax ay cx cy bx bY = trianglePixels ax ay bx bY cx cy := by
  have h1 : min ax (min cx bx) = min ax (min bx cx) := by omega
  have h2 : max ax (max cx bx) = max ax (max bx cx) := by omega
  have h3 : min ay (min cy bY) = min ay (min bY cy) := by omega
  have h4 : max ay (max cy bY) = max ay (max bY cy) := by omega
  have hf : (fun p : Int × Int => insideTriangle ax ay cx cy bx bY p.1 p.2) =
      (fun p : Int × Int => insideTriangle ax ay bx bY cx cy p.1 p.2) := by
    funext p
    exact insideTriangle_swap ax ay bx bY cx cy p.1 p.2
  simp only [trianglePixels, h1, h2, h3, h4, hf]

theorem perm_pair {α : Type} {b c y z : α} (h : [b, c].Perm [y, z]) :
    (b = y ∧ c = z) ∨ (b = z ∧ c = y) := by
  have hb : b ∈ [y, z] := h.mem_iff.1 (List.mem_cons_self _ _)
  simp only [List.mem_cons, List.mem_singleton, List.not_mem_nil, or_false] at hb
  rcases hb with rfl | rfl
  · left
    exact ⟨rfl, List.singleton_perm_singleton.1 h.cons_inv⟩
  · right
    have h2 : [b, c].Perm [b, y] := h.trans (List.Perm.swap b y [])
    exact ⟨rfl, List.singleton_perm_singleton.1 h2.cons_inv⟩

theorem perm_triple {α : Type} {a b c x y z : α} (h : [a, b, c].Perm [x, y, z]) :
    (a = x ∧ b = y ∧ c = z) ∨ (a = x ∧ b = z ∧ c = y) ∨
    (a = y ∧ b = x ∧ c = z) ∨ (a = y ∧ b = z ∧ c = x) ∨
    (a = z ∧ b = x ∧ c = y) ∨ (a = z ∧ b = y ∧ c = x) := by
  have ha : a ∈ [x, y, z] := h.mem_iff.1 (List.mem_cons_self _ _)
  simp only [List.mem_cons, List.mem_singleton, List.not_mem_nil, or_false] at ha
  rcases ha with rfl | rfl | rfl
  · rcases perm_pair h.cons_inv with ⟨h1, h2⟩ | ⟨h1, h2⟩
    · exact Or.inl ⟨rfl, h1, h2⟩
    · exact Or.inr (Or.inl ⟨rfl, h1, h2⟩)
  · have h2 : [a, b, c].Perm [a, x, z] := h.trans (List.Perm.swap a x [z])
    rcases perm_pair h2.cons_inv with ⟨h1, h3⟩ | ⟨h1, h3⟩
    · exact Or.inr (Or.inr (Or.inl ⟨rfl, h1, h3⟩))
    · exact Or.inr (Or.inr (Or.inr (Or.inl ⟨rfl, h1, h3⟩)))
  · have h2 : [a, b, c].Perm [a, x, y] :=
      h.trans ((List.Perm.cons x (List.Perm.swap a y [])).trans (List.Perm.swap a x [y]))
    rcases perm_pair h2.cons_inv with ⟨h1, h3⟩ | ⟨h1, h3⟩
    · exact Or.inr (Or.inr (Or.inr (Or.inr (Or.inl ⟨rfl, h1, h3⟩))))
    · exact Or.inr (Or.inr (Or.inr (Or.inr (Or.inr ⟨rfl, h1, h3⟩))))

/-- The footprint of a triangle depends only on its set of vertices. -/
theorem triangleFootprint_of_perm (core : Core) (t : DrawTriangle) (a b c : Int × Int)
    (h : t.verts.Perm [a, b, c]) :
    triangleFootprint core t =
      trianglePixels (a.1 + core.drawOffsetX) (a.2 + core.drawOffsetY)
        (b.1 + core.drawOffsetX) (b.2 + core.drawOffsetY)
        (c.1 + core.drawOffsetX) (c.2 + core.drawOffsetY) := by
  unfold DrawTriangle.verts at h
  unfold triangleFootprint
  rcases perm_triple h with ⟨h1, h2, h3⟩ | ⟨h1, h2, h3⟩ | ⟨h1, h2, h3⟩ | ⟨h1, h2, h3⟩ |
    ⟨h1, h2, h3⟩ | ⟨h1, h2, h3⟩ <;>
  · rw [Prod.ext_iff] at h1 h2 h3
    simp only at h1 h2 h3
    rw [h1.1, h1.2, h2.1, h2.2, h3.1, h3.2]
    all_goals first
      | rfl
      | exact trianglePixels_swap _ _ _ _ _ _
      | exact trianglePixels_rotate _ _ _ _ _ _
      | exact (trianglePixels_rotate _ _ _ _ _ _).symm
      | exact (trianglePixels_swap _ _ _ _ _ _).trans (trianglePixels_rotate _ _ _ _ _ _)
      | exact (trianglePixels_swap _ _ _ _ _ _).trans
          (trianglePixels_rotate _ _ _ _ _ _).symm

theorem trianglePixels_of_zero (ax ay bx bY cx cy : Int) (p : Int × Int)
    (h : edgeFn ax ay bx bY cx cy = 0) : p ∉ trianglePixels ax ay bx bY cx cy := by
  rw [mem_trianglePixels, insideTriangle_of_zero _ _ _ _ _ _ _ _ h]
  simp

/-- Splitting along the diagonal `B C`: the triangles `A B C` and `B D C` partition the
half open rectangle. -/
theorem split_diag_BC (X Y : Int) (w h : Nat) (p : Int × Int) :
    (p ∈ pixelGrid X w Y h ↔
      (p ∈ trianglePixels X Y (X + w) Y X (Y + h) ∨
        p ∈ trianglePixels (X + w) Y (X + w) (Y + h) X (Y + h))) ∧
    ¬ (p ∈ trianglePixels X Y (X + w) Y X (Y + h) ∧
        p ∈ trianglePixels (X + w) Y (X + w) (Y + h) X (Y + h)) := by
  by_cases hz : w = 0 ∨ h = 0
  · have e1 : edgeFn X Y (X + w) Y X (Y + h) = 0 := by
      have e : edgeFn X Y (X + w) Y X (Y + h) = (w : Int) * h := by unfold edgeFn; ring
      rw [e]; rcases hz with rfl | rfl <;> simp
    have e2 : edgeFn (X + w) Y (X + w) (Y + h) X (Y + h) = 0 := by
      have e : edgeFn (X + w) Y (X + w) (Y + h) X (Y + h) = (w : Int) * h := by
        unfold edgeFn; ring
      rw [e]; rcases hz with rfl | rfl <;> simp
    have n1 := trianglePixels_of_zero _ _ _ _ _ _ p e1
    have n2 := trianglePixels_of_zero _ _ _ _ _ _ p e2
    refine ⟨?_, fun hh => n1 hh.1⟩
    rw [mem_pixelGrid]
    constructor
    · rintro ⟨hx, hy⟩
      exfalso
      rcases hz with rfl | rfl <;> omega
    · rintro (hh | hh)
      · exact absurd hh n1
      · exact absurd hh n2
  · have hw : (0 : Int) < w := by omega
    have hh : (0 : Int) < h := by omega
    rw [mem_pixelGrid, mem_trianglePixels, mem_trianglePixels,
      inside_ABC X Y w h p.1 p.2 hw hh, inside_BDC X Y w h p.1 p.2 hw hh]
    have b1 : min X (min (X + (w : Int)) X) = X := by omega
    have b2 : max X (max (X + (w : Int)) X) = X + w := by omega
    have b3 : min Y (min Y (Y + (h : Int))) = Y := by omega
    have b4 : max Y (max Y (Y + (h : Int))) = Y + h := by omega
    have b5 : min (X + (w : Int)) (min (X + (w : Int)) X) = X := by omega
    have b6 : max (X + (w : Int)) (max (X + (w : Int)) X) = X + w := by omega
    have b7 : min Y (min (Y + (h : Int)) (Y + (h : Int))) = Y := by omega
    have b8 : max Y (max (Y + (h : Int)) (Y + (h : Int))) = Y + h := by omega
    rw [b1, b2, b3, b4, b5, b6, b7, b8]
    generalize hE : (h : Int) * (X + w - p.1) - w * (p.2 - Y) = E
    have keyX : 0 < E → Y ≤ p.2 → p.1 < X + w := by
      intro h1 h2
      by_contra hc
      have m1 := mul_nonneg hh.le (by omega : (0 : Int) ≤ p.1 - (X + w))
      have m2 := mul_nonneg hw.le (by omega : (0 : Int) ≤ p.2 - Y)
      nlinarith
    have keyY : 0 < E → X ≤ p.1 → p.2 < Y + h := by
      intro h1 h2
      by_contra hc
      have m1 := mul_nonneg hh.le (by omega : (0 : Int) ≤ p.1 - X)
      have m2 := mul_nonneg hw.le (by omega : (0 : Int) ≤ p.2 - (Y + h))
      nlinarith
    refine ⟨⟨?_, ?_⟩, ?_⟩
    · rintro ⟨⟨hx1, hx2⟩, hy1, hy2⟩
      rcases lt_or_le 0 E with hpos | hneg
      · exact Or.inl ⟨⟨⟨hx1, by omega⟩, hy1, by omega⟩, hy1, hpos, hx1⟩
      · exact Or.inr ⟨⟨⟨hx1, by omega⟩, hy1, by omega⟩, hx2, hy2, hneg⟩
    · rintro (⟨⟨⟨hx1, _⟩, hy1, _⟩, _, hpos, _⟩ | ⟨⟨⟨hx1, _⟩, hy1, _⟩, hx2, hy2, _⟩)
      · exact ⟨⟨hx1, keyX hpos hy1⟩, hy1, keyY hpos hx1⟩
      · exact ⟨⟨hx1, hx2⟩, hy1, hy2⟩
    · rintro ⟨⟨_, _, hpos, _⟩, _, _, _, hneg⟩
      omega

/-- Splitting along the diagonal `A D`: the triangles `A B D` and `A D C` partition the
half open rectangle. -/
theorem split_diag_AD (X Y : Int) (w h : Nat) (p : Int × Int) :
    (p ∈ pixelGrid X w Y h ↔
      (p ∈ trianglePixels X Y (X + w) Y (X + w) (Y + h) ∨
        p ∈ trianglePixels X Y (X + w) (Y + h) X (Y + h))) ∧
    ¬ (p ∈ trianglePixels X Y (X + w) Y (X + w) (Y + h) ∧
        p ∈ trianglePixels X Y (X + w) (Y + h) X (Y + h)) := by
  by_cases hz : w = 0 ∨ h = 0
  · have e1 : edgeFn X Y (X + w) Y (X + w) (Y + h) = 0 := by
      have e : edgeFn X Y (X + w) Y (X + w) (Y + h) = (w : Int) * h := by unfold edgeFn; ring
      rw [e]; rcases hz with rfl | rfl <;> simp
    have e2 : edgeFn X Y (X + w) (Y + h) X (Y + h) = 0 := by
      have e : edgeFn X Y (X + w) (Y + h) X (Y + h) = (w : Int) * h := by
        unfold edgeFn; ring
      rw [e]; rcases hz with rfl | rfl <;> simp
    have n1 := trianglePixels_of_zero _ _ _ _ _ _ p e1
    have n2 := trianglePixels_of_zero _ _ _ _ _ _ p e2
    refine ⟨?_, fun hh => n1 hh.1⟩
    rw [mem_pixelGrid]
    constructor
    · rintro ⟨hx, hy⟩
      exfalso
      rcases hz with rfl | rfl <;> omega
    · rintro (hh | hh)
      · exact absurd hh n1
      · exact absurd hh n2
  · have hw : (0 : Int) < w := by omega
    have hh : (0 : Int) < h := by omega
    rw [mem_pixelGrid, mem_trianglePixels, mem_trianglePixels,
      inside_ABD X Y w h p.1 p.2 hw hh, inside_ADC X Y w h p.1 p.2 hw hh]
    have b1 : min X (min (X + (w : Int)) (X + (w : Int))) = X := by omega
    have b2 : max X (max (X + (w : Int)) (X + (w : Int))) = X + w := by omega
    have b3 : min Y (min Y (Y + (h : Int))) = Y := by omega
    have b4 : max Y (max Y (Y + (h : Int))) = Y + h := by omega
    have b5 : min X (min (X + (w : Int)) X) = X := by omega
    have b6 : max X (max (X + (w : Int)) X) = X + w := by omega
    have b7 : min Y (min (Y + (h : Int)) (Y + (h : Int))) = Y := by omega
    have b8 : max Y (max (Y + (h : Int)) (Y + (h : Int))) = Y + h := by omega
    rw [b1, b2, b3, b4, b5, b6, b7, b8]
    generalize hF : (h : Int) * (p.1 - X) - w * (p.2 - Y) = F
    have keyY : 0 ≤ F → p.1 < X + w → p.2 < Y + h := by
      intro h1 h2
      by_contra hc
      have m1 := mul_pos hh (by omega : (0 : Int) < X + w - p.1)
      have m2 := mul_nonneg hw.le (by omega : (0 : Int) ≤ p.2 - (Y + h))
      nlinarith
    have keyX : F < 0 → p.2 < Y + h → p.1 < X + w := by
      intro h1 h2
      by_contra hc
      have m1 := mul_nonneg hh.le (by omega : (0 : Int) ≤ p.1 - (X + w))
      have m2 := mul_pos hw (by omega : (0 : Int) < Y + h - p.2)
      nlinarith
    refine ⟨⟨?_, ?_⟩, ?_⟩
    · rintro ⟨⟨hx1, hx2⟩, hy1, hy2⟩
      rcases lt_or_le F 0 with hneg | hpos
      · exact Or.inr ⟨⟨⟨hx1, by omega⟩, hy1, by omega⟩, hneg, hy2, hx1⟩
      · exact Or.inl ⟨⟨⟨hx1, by omega⟩, hy1, by omega⟩, hy1, hx2, hpos⟩
    · rintro (⟨⟨⟨hx1, _⟩, hy1, _⟩, _, hx2, hpos⟩ | ⟨⟨⟨hx1, _⟩, hy1, _⟩, hneg, hy2, _⟩)
      · exact ⟨⟨hx1, hx2⟩, hy1, keyY hpos hx2⟩
      · exact ⟨⟨hx1, keyX hneg hy2⟩, hy1, hy2⟩
    · rintro ⟨⟨_, _, _, hpos⟩, _, hneg, _, _⟩
      omega

theorem footprint_partition (core : Core) (rect : DrawRect) (t1 t2 : DrawTriangle)
    (hsplit : SplitsRect rect t1 t2) (p : Int × Int) :
    (p ∈ rectFootprint core rect ↔
      (p ∈ triangleFootprint core t1 ∨ p ∈ triangleFootprint core t2)) ∧
    ¬ (p ∈ triangleFootprint core t1 ∧ p ∈ triangleFootprint core t2) := by
  have ex : rect.x + (rect.w : Int) + core.drawOffsetX =
      rect.x + core.drawOffsetX + (rect.w : Int) := by ring
  have ey : rect.y + (rect.h : Int) + core.drawOffsetY =
      rect.y + core.drawOffsetY + (rect.h : Int) := by ring
  have hBC := split_diag_BC (rect.x + core.drawOffsetX) (rect.y + core.drawOffsetY)
    rect.w rect.h p
  have hAD := split_diag_AD (rect.x + core.drawOffsetX) (rect.y + core.drawOffsetY)
    rect.w rect.h p
  unfold SplitsRect at hsplit
  simp only at hsplit
  unfold rectFootprint
  rcases hsplit with ⟨h1, h2⟩ | ⟨h1, h2⟩ | ⟨h1, h2⟩ | ⟨h1, h2⟩
  · rw [triangleFootprint_of_perm core t1 _ _ _ h1, triangleFootprint_of_perm core t2 _ _ _ h2]
    simp only [ex, ey]
    exact hBC
  · rw [triangleFootprint_of_perm core t1 _ _ _ h1, triangleFootprint_of_perm core t2 _ _ _ h2]
    simp only [ex, ey]
    exact ⟨hBC.1.trans Or.comm, fun hh => hBC.2 ⟨hh.2, hh.1⟩⟩
  · rw [triangleFootprint_of_perm core t1 _ _ _ h1, triangleFootprint_of_perm core t2 _ _ _ h2]
    simp only [ex, ey]
    exact hAD
  · rw [triangleFootprint_of_perm core t1 _ _ _ h1, triangleFootprint_of_perm core t2 _ _ _ h2]
    simp only [ex, ey]
    exact ⟨hAD.1.trans Or.comm, fun hh => hAD.2 ⟨hh.2, hh.1⟩⟩

theorem mem_clipToDrawArea (core : Core) (fp : List (Int × Int)) (p : Int × Int) :
    p ∈ clipToDrawArea core fp ↔
      p ∈ fp ∧ (0 ≤ p.1 ∧ 0 ≤ p.2 ∧ isPixelInDrawArea core p.1.toNat p.2.toNat = true) := by
  unfold clipToDrawArea
  rw [List.mem_filter, decide_eq_true_eq]

/-- C8: when two `DrawTriangle` primitives split an axis aligned rectangle along one of
its diagonals, whatever the order of their vertices, every pixel of the rectangle is
rasterized by one of the two triangles, every pixel of either triangle is a pixel of the
rectangle, no pixel is rasterized by both, and no footprint lists a pixel twice; the same
partition holds for the pixels that survive clipping against the draw area. -/
theorem triangles_partition_rect (core : Core) (rect : DrawRect) (t1 t2 : DrawTriangle)
    (hsplit : SplitsRect rect t1 t2) :
    (∀ p, p ∈ rectFootprint core rect ↔
      (p ∈ triangleFootprint core t1 ∨ p ∈ triangleFootprint core t2)) ∧
    (∀ p, ¬ (p ∈ triangleFootprint core t1 ∧ p ∈ triangleFootprint core t2)) ∧
    ((rectFootprint core rect).Nodup ∧ (triangleFootprint core t1).Nodup ∧
      (triangleFootprint core t2).Nodup) ∧
    (∀ p, p ∈ clipToDrawArea core (rectFootprint core rect) ↔
      (p ∈ clipToDrawArea core (triangleFootprint core t1) ∨
        p ∈ clipToDrawArea core (triangleFootprint core t2))) := by
  refine ⟨fun p => (footprint_partition core rect t1 t2 hsplit p).1,
    fun p => (footprint_partition core rect t1 t2 hsplit p).2,
    ⟨nodup_pixelGrid _ _ _ _, nodup_trianglePixels _ _ _ _ _ _,
      nodup_trianglePixels _ _ _ _ _ _⟩, ?_⟩
  intro p
  rw [mem_clipToDrawArea, mem_clipToDrawArea, mem_clipToDrawArea,
    (footprint_partition core rect t1 t2 hsplit p).1]
  tauto

/-- Witness for `triangles_partition_rect`: the 3 by 2 rectangle at `(1, 1)` on the
sample core, split along the diagonal from `(4, 1)` to `(1, 3)`. -/
theorem triangles_partition_rect_witness :
    (∀ p, p ∈ rectFootprint sampleCore ⟨1, 1, 3, 2, 0, 0, Color24F.rgb 128 128 128⟩ ↔
      (p ∈ triangleFootprint sampleCore
          ⟨1, 1, 0, 0, 4, 1, 0, 0, 1, 3, 0, 0, Color24F.rgb 128 128 128⟩ ∨
        p ∈ triangleFootprint sampleCore
          ⟨1, 3, 0, 0, 4, 1, 0, 0, 4, 3, 0, 0, Color24F.rgb 128 128 128⟩)) ∧
    (∀ p, ¬ (p ∈ triangleFootprint sampleCore
          ⟨1, 1, 0, 0, 4, 1, 0, 0, 1, 3, 0, 0, Color24F.rgb 128 128 128⟩ ∧
        p ∈ triangleFootprint sampleCore
          ⟨1, 3, 0, 0, 4, 1, 0, 0, 4, 3, 0, 0, Color24F.rgb 128 128 128⟩)) :=
  have h := triangles_partition_rect sampleCore ⟨1, 1, 3, 2, 0, 0, Color24F.rgb 128 128 128⟩
    ⟨1, 1, 0, 0, 4, 1, 0, 0, 1, 3, 0, 0, Color24F.rgb 128 128 128⟩
    ⟨1, 3, 0, 0, 4, 1, 0, 0, 4, 3, 0, 0, Color24F.rgb 128 128 128⟩
    (Or.inl ⟨by decide, by decide⟩)
  ⟨h.1, h.2.1⟩

/-! ## Initialisation -/

theorem ceilPow2Aux_pow2 (steps : Nat) :
    ∀ j n : Nat, ∃ k, j ≤ k ∧ k ≤ j + steps ∧ ceilPow2Aux steps (2 ^ j) n = 2 ^ k := by
  induction steps with
  | zero =>
    intro j n
    exact ⟨j, le_refl j, by omega, rfl⟩
  | succ m ih =>
    intro j n
    unfold ceilPow2Aux
    by_cases h : n ≤ 2 ^ j
    · rw [if_pos h]
      exact ⟨j, le_refl j, by omega, rfl⟩
    · rw [if_neg h]
      obtain ⟨k, h1, h2, h3⟩ := ih (j + 1) n
      refine ⟨k, by omega, by omega, ?_⟩
      rw [← h3, pow_succ, Nat.mul_comm]

theorem ceilPow2_pow2 (n : Nat) : ∃ k, k ≤ 15 ∧ ceilPow2 n = 2 ^ k := by
  obtain ⟨k, _, h2, h3⟩ := ceilPow2Aux_pow2 15 0 n
  exact ⟨k, by omega, h3⟩

theorem masked_index_lt (w h a b : Nat) (ha : a < h) (hb : b < w) : a * w + b < w * h := by
  have h1 : (a + 1) * w ≤ h * w := Nat.mul_le_mul_right w ha
  have h2 : (a + 1) * w = a * w + w := by ring
  have h3 : h * w = w * h := Nat.mul_comm h w
  omega

/-- C11: after `initCore(core, w, h)` the VRAM width and height are powers of two, the
masks are `ramPixelW - 1` and `ramPixelH - 1`, and for every `(x, y)`, taken as 16-bit
values, the linear index `(y & ramYMask) * ramPixelW + (x & ramXMask)` used by VRAM reads
and writes is below `ramPixelW * ramPixelH`. -/
theorem initCore_invariant (core : Core) (w h x y : Nat) :
    (∃ k, (initCore core w h).ramPixelW = 2 ^ k) ∧
    (∃ l, (initCore core w h).ramPixelH = 2 ^ l) ∧
    (initCore core w h).ramXMask = (initCore core w h).ramPixelW - 1 ∧
    (initCore core w h).ramYMask = (initCore core w h).ramPixelH - 1 ∧
    (u16 y &&& (initCore core w h).ramYMask) * (initCore core w h).ramPixelW +
        (u16 x &&& (initCore core w h).ramXMask) <
      (initCore core w h).ramPixelW * (initCore core w h).ramPixelH ∧
    vramIndex (initCore core w h) x y <
      (initCore core w h).ramPixelW * (initCore core w h).ramPixelH := by
  obtain ⟨k, hk, ek⟩ := ceilPow2_pow2 (u16 w)
  obtain ⟨l, hl, el⟩ := ceilPow2_pow2 (u16 h)
  have eW : (initCore core w h).ramPixelW = 2 ^ k := ek
  have eH : (initCore core w h).ramPixelH = 2 ^ l := el
  have eX : (initCore core w h).ramXMask = (initCore core w h).ramPixelW - 1 := rfl
  have eY : (initCore core w h).ramYMask = (initCore core w h).ramPixelH - 1 := rfl
  have key : (u16 y &&& (initCore core w h).ramYMask) * (initCore core w h).ramPixelW +
      (u16 x &&& (initCore core w h).ramXMask) <
      (initCore core w h).ramPixelW * (initCore core w h).ramPixelH := by
    rw [eX, eY, eW, eH, u16_mask_pow2 x k (by omega), u16_mask_pow2 y l (by omega)]
    exact masked_index_lt _ _ _ _ (Nat.mod_lt _ (Nat.two_pow_pos l))
      (Nat.mod_lt _ (Nat.two_pow_pos k))
  exact ⟨⟨k, eW⟩, ⟨l, eH⟩, eX, eY, key, key⟩

/-! ## The two `make` functions -/

theorem make3_eq_make_zero (r g b : Nat) : Color16.make3 r g b = Color16.make r g b 0 := by
  simp [Color16.make3, Color16.make]

/-- C20: for `r, g, b` in `[0, 31]` the three argument `Color16::make(r, g, b)` equals
`Color16::make(r, g, b, 0)`, its semi transparency flag reads `0` and its channels read
`r`, `g` and `b`. -/
theorem make3_spec (r g b : Nat) (hr : r ≤ 31) (hg : g ≤ 31) (hb : b ≤ 31) :
    Color16.make3 r g b = Color16.make r g b 0 ∧
    (Color16.make3 r g b).getT = 0 ∧
    (Color16.make3 r g b).getR = r ∧ (Color16.make3 r g b).getG = g ∧
    (Color16.make3 r g b).getB = b := by
  obtain ⟨h1, h2, h3⟩ := make3_channels r g b hr hg hb
  refine ⟨make3_eq_make_zero r g b, ?_, h1, h2, h3⟩
  rw [getT_eq, make3_bits r g b hr hg hb]
  omega

/-- Witness for `make3_spec` at `r = 31`, `g = 0`, `b = 17`. -/
theorem make3_spec_witness :
    Color16.make3 31 0 17 = Color16.make 31 0 17 0 ∧
    (Color16.make3 31 0 17).getT = 0 ∧
    (Color16.make3 31 0 17).getR = 31 ∧ (Color16.make3 31 0 17).getG = 0 ∧
    (Color16.make3 31 0 17).getB = 17 :=
  make3_spec 31 0 17 (by decide) (by decide) (by decide)

end Gpu

namespace Doom

/-! ## String comparison -/

theorem strncasecmp_same (psydoomMods : Bool) (s : List Nat) (hs : ∀ c ∈ s, c ≠ 0) :
    ∀ maxCount : Int, (s.length : Int) < maxCount →
      D_strncasecmp psydoomMods s s maxCount = 1 := by
  induction s with
  | nil =>
    intro maxCount _
    simp [D_strncasecmp]
  | cons c rest ih =>
    intro maxCount hmax
    have hc : c ≠ 0 := hs c (List.mem_cons_self _ _)
    have hrest : ∀ d ∈ rest, d ≠ 0 := fun d hd => hs d (List.mem_cons_of_mem _ hd)
    have hlen : ((rest.length : Int) + 1) < maxCount := by
      simpa using hmax
    have h1 : ¬ (maxCount - 1 ≤ 0) := by omega
    have h2 : ¬ (maxCount - 1 = 0) := by omega
    rw [D_strncasecmp]
    cases psydoomMods <;> simp [hc, h1, h2] <;> exact ih hrest (maxCount - 1) (by omega)

/-- C12: evaluation of `D_strncasecmp` on equal strings with `maxCount` above their
length: the strings `A` and `A` with `maxCount = 8`, and two empty strings with
`maxCount = 1`, compare to `1`, with either setting of the build macro, where the
comment of the function documents `0` for equal strings. -/
theorem strncasecmp_equal_returns_one :
    D_strncasecmp true [65] [65] 8 = 1 ∧ D_strncasecmp false [65] [65] 8 = 1 ∧
    D_strncasecmp true [] [] 1 = 1 ∧ D_strncasecmp false [] [] 1 = 1 ∧
    D_strncasecmp true [65, 0, 7] [65, 0, 9] 8 = 1 := by
  decide

/-- C13: evaluation of `D_strncasecmp` on two strings of which one is a proper prefix of
the other: `A` against `AB` with `maxCount = 8` compares to `0`, in both orders and with
either setting of the build macro, where the comment of the function documents `1` for
strings that are not equal; strings that differ at a common position compare to `1`. -/
theorem strncasecmp_prefix_returns_zero :
    D_strncasecmp true [65] [65, 66] 8 = 0 ∧ D_strncasecmp true [65, 66] [65] 8 = 0 ∧
    D_strncasecmp false [65] [65, 66] 8 = 0 ∧ D_strncasecmp false [65, 66] [65] 8 = 0 ∧
    D_strncasecmp true [65, 67] [65, 66] 8 = 1 := by
  decide

theorem strncasecmp_first_difference (psydoomMods : Bool) (pre : List Nat)
    (hpre : ∀ c ∈ pre, c ≠ 0) (c1 c2 : Nat) (rest1 rest2 : List Nat)
    (h1 : c1 ≠ 0) (h2 : c2 ≠ 0) (hne : c1 ≠ c2) :
    ∀ maxCount : Int, (pre.length : Int) < maxCount →
      D_strncasecmp psydoomMods (pre ++ c1 :: rest1) (pre ++ c2 :: rest2) maxCount = 1 := by
  induction pre with
  | nil =>
    intro maxCount _
    simp [D_strncasecmp, h1, h2, hne]
  | cons c rest ih =>
    intro maxCount hmax
    have hc : c ≠ 0 := hpre c (List.mem_cons_self _ _)
    have hrest : ∀ d ∈ rest, d ≠ 0 := fun d hd => hpre d (List.mem_cons_of_mem _ hd)
    have hlen : ((rest.length : Int) + 1) < maxCount := by
      simpa using hmax
    have h3 : ¬ (maxCount - 1 ≤ 0) := by omega
    have h4 : ¬ (maxCount - 1 = 0) := by omega
    rw [List.cons_append, List.cons_append, D_strncasecmp]
    cases psydoomMods <;> simp [hc, h3, h4] <;> exact ih hrest (maxCount - 1) (by omega)

/-- C14: `D_strncasecmp` is case sensitive.  When two strings agree on a common prefix
that is shorter than `maxCount` and then both have a character, and the two characters
differ while their upper case forms agree (they differ only in letter case), the result
is `1`, with either setting of the build macro. -/
theorem strncasecmp_case_sensitive (psydoomMods : Bool) (pre : List Nat)
    (hpre : ∀ c ∈ pre, c ≠ 0) (c1 c2 : Nat) (rest1 rest2 : List Nat)
    (h1 : c1 ≠ 0) (h2 : c2 ≠ 0) (hne : c1 ≠ c2) (_hcase : upperChar c1 = upperChar c2)
    (maxCount : Int) (hmax : (pre.length : Int) < maxCount) :
    D_strncasecmp psydoomMods (pre ++ c1 :: rest1) (pre ++ c2 :: rest2) maxCount = 1 :=
  strncasecmp_first_difference psydoomMods pre hpre c1 c2 rest1 rest2 h1 h2 hne maxCount hmax

/-- Witness for `strncasecmp_case_sensitive`: `SKYa` against `SKYA1` with
`maxCount = 8`. -/
theorem strncasecmp_case_sensitive_witness :
    D_strncasecmp true ([83, 75, 89] ++ 97 :: []) ([83, 75, 89] ++ 65 :: [49]) 8 = 1 :=
  strncasecmp_case_sensitive true [83, 75, 89] (by decide) 97 65 [] [49] (by decide)
    (by decide) (by decide) (by decide) 8 (by decide)

/-! ## Memory fill -/

theorem storeByte_apply (mem : Mem) (addr value a : Nat) :
    storeByte mem addr value a = if a = addr then value else mem a := rfl

set_option maxRecDepth 100000 in
/-- The four bytes of the fill word all equal the fill byte. -/
theorem fillWord_bytes : ∀ b : Nat, b < 256 →
    (u32 (u32 (u32 b <<< 24) ||| u32 (u32 b <<< 16) ||| u32 (u32 b <<< 8) ||| u32 b)) % 256 = b ∧
    (u32 (u32 (u32 b <<< 24) ||| u32 (u32 b <<< 16) ||| u32 (u32 b <<< 8) ||| u32 b))
      >>> 8 % 256 = b ∧
    (u32 (u32 (u32 b <<< 24) ||| u32 (u32 b <<< 16) ||| u32 (u32 b <<< 8) ||| u32 b))
      >>> 16 % 256 = b ∧
    (u32 (u32 (u32 b <<< 24) ||| u32 (u32 b <<< 16) ||| u32 (u32 b <<< 8) ||| u32 b))
      >>> 24 % 256 = b := by
  decide

theorem storeWord_fill (mem : Mem) (addr word b : Nat)
    (hw : word % 256 = b ∧ word >>> 8 % 256 = b ∧ word >>> 16 % 256 = b ∧
      word >>> 24 % 256 = b) (a : Nat) :
    storeWord mem addr word a = if addr ≤ a ∧ a < addr + 4 then b else mem a := by
  obtain ⟨h0, h1, h2, h3⟩ := hw
  simp only [storeWord, storeByte_apply, h0, h1, h2, h3]
  split_ifs <;> first | rfl | omega

theorem storeWords8_fill (mem : Mem) (addr word b : Nat)
    (hw : word % 256 = b ∧ word >>> 8 % 256 = b ∧ word >>> 16 % 256 = b ∧
      word >>> 24 % 256 = b) (a : Nat) :
    storeWords8 mem addr word a = if addr ≤ a ∧ a < addr + 32 then b else mem a := by
  simp only [storeWords8, storeWord_fill _ _ word b hw]
  split_ifs <;> first | rfl | omega

theorem memsetTail_fill (b : Nat) :
    ∀ (n : Nat) (mem : Mem) (p a : Nat),
      memsetTail b n mem p a = if p ≤ a ∧ a < p + n then b else mem a := by
  intro n
  induction n with
  | zero =>
    intro mem p a
    have : ¬ (p ≤ a ∧ a < p + 0) := by omega
    rw [memsetTail, if_neg this]
  | succ n ih =>
    intro mem p a
    rw [memsetTail, ih, storeByte_apply]
    split_ifs <;> first | rfl | omega

theorem memsetAlign_fill (b : Nat) :
    ∀ (n : Nat) (mem : Mem) (p : Nat),
      (∀ m, memsetAlign b n mem p = Sum.inl m →
        ∀ a, m a = if p ≤ a ∧ a < p + n then b else mem a) ∧
      (∀ m q left, memsetAlign b n mem p = Sum.inr (m, q, left) →
        q + left = p + n ∧ left ≤ n ∧
        ∀ a, m a = if p ≤ a ∧ a < q then b else mem a) := by
  intro n
  induction n with
  | zero =>
    intro mem p
    constructor
    · intro m hm a
      rw [memsetAlign] at hm
      split_ifs at hm
      · cases hm
        have : ¬ (p ≤ a ∧ a < p + 0) := by omega
        rw [if_neg this]
    · intro m q left hm
      rw [memsetAlign] at hm
      split_ifs at hm
      · cases hm
        refine ⟨rfl, le_refl _, ?_⟩
        intro a
        have : ¬ (p ≤ a ∧ a < p) := by omega
        rw [if_neg this]
  | succ n ih =>
    intro mem p
    obtain ⟨ih1, ih2⟩ := ih (storeByte mem p b) (p + 1)
    constructor
    · intro m hm a
      rw [memsetAlign] at hm
      split_ifs at hm
      · rw [ih1 m hm a, storeByte_apply]
        split_ifs <;> first | rfl | omega
    · intro m q left hm
      rw [memsetAlign] at hm
      split_ifs at hm
      · obtain ⟨e1, e2, e3⟩ := ih2 m q left hm
        refine ⟨by omega, by omega, ?_⟩
        intro a
        rw [e3 a, storeByte_apply]
        split_ifs <;> first | rfl | omega
      · cases hm
        refine ⟨rfl, le_refl _, ?_⟩
        intro a
        have : ¬ (p ≤ a ∧ a < p) := by omega
        rw [if_neg this]

theorem memsetWords_fill (word b : Nat)
    (hw : word % 256 = b ∧ word >>> 8 % 256 = b ∧ word >>> 16 % 256 = b ∧
      word >>> 24 % 256 = b) :
    ∀ (n : Nat) (mem : Mem) (p : Nat),
      (memsetWords word n mem p).2.1 + (memsetWords word n mem p).2.2 = p + n ∧
      (memsetWords word n mem p).2.2 < 32 ∧
      (memsetWords word n mem p).2.2 ≤ n ∧
      ∀ a, (memsetWords word n mem p).1 a =
        if p ≤ a ∧ a < (memsetWords word n mem p).2.1 then b else mem a := by
  intro n
  induction n using Nat.strong_induction_on with
  | _ n ih =>
    intro mem p
    by_cases hn : n < 32
    · have e : memsetWords word n mem p = (mem, p, n) := by
        rw [memsetWords]
        omega
      rw [e]
      refine ⟨rfl, hn, le_refl _, ?_⟩
      intro a
      have : ¬ (p ≤ a ∧ a < p) := by omega
      simp only [if_neg this]
    · obtain ⟨k, rfl⟩ : ∃ k, n = k + 32 := ⟨n - 32, by omega⟩
      have e : memsetWords word (k + 32) mem p =
          memsetWords word k (storeWords8 mem p word) (p + 32) := by
        rw [memsetWords]
      rw [e]
      obtain ⟨r1, r2, r3, r4⟩ := ih k (by omega) (storeWords8 mem p word) (p + 32)
      refine ⟨by omega, r2, by omega, ?_⟩
      intro a
      rw [r4 a, storeWords8_fill mem p word b hw]
      split_ifs <;> first | rfl | omega

theorem memset_fill (mem : Mem) (pDst b count : Nat) (hb : b < 256) (a : Nat) :
    D_memset mem pDst b count a =
      if pDst ≤ a ∧ a < pDst + u32 count then b else mem a := by
  obtain ⟨hA1, hA2⟩ := memsetAlign_fill b (u32 count) mem pDst
  unfold D_memset
  cases hr : memsetAlign b (u32 count) mem pDst with
  | inl m => exact hA1 m hr a
  | inr t =>
    obtain ⟨m, q, left⟩ := t
    obtain ⟨e1, e2, e3⟩ := hA2 m q left hr
    obtain ⟨w1, w2, w3, w4⟩ := memsetWords_fill _ b (fillWord_bytes b hb) left m q
    simp only []
    rw [memsetTail_fill, w4 a, e3 a]
    split_ifs <;> first | rfl | omega

/-- C15: for every destination address, whatever its alignment, every fill byte and
every 32-bit count, after `D_memset(pDst, b, count)` each of the bytes
`pDst[0 .. count - 1]` equals `b`, and every byte outside that range keeps its value. -/
theorem memset_spec (mem : Mem) (pDst b count : Nat) (hb : b < 256)
    (hcount : count < 4294967296) :
    (∀ i, i < count → D_memset mem pDst b count (pDst + i) = b) ∧
    (∀ a, (a < pDst ∨ pDst + count ≤ a) → D_memset mem pDst b count a = mem a) := by
  have hu : u32 count = count := Nat.mod_eq_of_lt hcount
  constructor
  · intro i hi
    rw [memset_fill mem pDst b count hb, hu, if_pos (by omega)]
  · intro a ha
    rw [memset_fill mem pDst b count hb, hu, if_neg (by omega)]

/-- Witness for `memset_spec`: 100 bytes at the unaligned address 1001 set to `0xAB`. -/
theorem memset_spec_witness :
    (∀ i, i < 100 → D_memset sampleMem 1001 171 100 (1001 + i) = 171) ∧
    (∀ a, (a < 1001 ∨ 1001 + 100 ≤ a) → D_memset sampleMem 1001 171 100 a = sampleMem a) :=
  memset_spec sampleMem 1001 171 100 (by decide) (by decide)

/-! ## Memory and string copy -/

theorem memcpyLoop_spec :
    ∀ (n : Nat) (mem : Mem) (d s : Nat), (d + n ≤ s ∨ s + n ≤ d) →
      ∀ a, memcpyLoop n mem d s a =
        if d ≤ a ∧ a < d + n then mem (s + (a - d)) else mem a := by
  intro n
  induction n with
  | zero =>
    intro mem d s _ a
    have : ¬ (d ≤ a ∧ a < d + 0) := by omega
    rw [memcpyLoop, if_neg this]
  | succ n ih =>
    intro mem d s hsep a
    rw [memcpyLoop, ih _ _ _ (by omega)]
    simp only [storeByte_apply]
    split_ifs <;> first | rfl | (exfalso; omega) | (congr 1; omega)

/-- C16: for every 32-bit `numBytes` and every pair of source and destination regions
that do not overlap, after `D_memcpy(pDst, pSrc, numBytes)` the destination holds the
source bytes, `pDst[i] = pSrc[i]` for every `i < numBytes`, the source bytes are
unchanged, and no byte outside `pDst[0 .. numBytes - 1]` is written, in particular no
destination byte at an index `numBytes` or above. -/
theorem memcpy_spec (mem : Mem) (pDst pSrc numBytes : Nat) (hn : numBytes < 4294967296)
    (hsep : pDst + numBytes ≤ pSrc ∨ pSrc + numBytes ≤ pDst) :
    (∀ i, i < numBytes → D_memcpy mem pDst pSrc numBytes (pDst + i) = mem (pSrc + i)) ∧
    (∀ i, i < numBytes → D_memcpy mem pDst pSrc numBytes (pSrc + i) = mem (pSrc + i)) ∧
    (∀ i, numBytes ≤ i → D_memcpy mem pDst pSrc numBytes (pDst + i) = mem (pDst + i)) ∧
    (∀ a, ¬ (pDst ≤ a ∧ a < pDst + numBytes) →
      D_memcpy mem pDst pSrc numBytes a = mem a) := by
  have hu : u32 numBytes = numBytes := Nat.mod_eq_of_lt hn
  have key := memcpyLoop_spec numBytes mem pDst pSrc hsep
  unfold D_memcpy
  rw [hu]
  refine ⟨?_, ?_, ?_, ?_⟩
  · intro i hi
    rw [key, if_pos (by omega), Nat.add_sub_cancel_left]
  · intro i hi
    rw [key, if_neg (by omega)]
  · intro i hi
    rw [key, if_neg (by omega)]
  · intro a ha
    rw [key, if_neg ha]

/-- Witness for `memcpy_spec`: 3 bytes copied from address 0 to address 10. -/
theorem memcpy_spec_witness :
    (∀ i, i < 3 → D_memcpy sampleMem 10 0 3 (10 + i) = sampleMem (0 + i)) ∧
    (∀ i, i < 3 → D_memcpy sampleMem 10 0 3 (0 + i) = sampleMem (0 + i)) ∧
    (∀ i, 3 ≤ i → D_memcpy sampleMem 10 0 3 (10 + i) = sampleMem (10 + i)) ∧
    (∀ a, ¬ (10 ≤ a ∧ a < 10 + 3) → D_memcpy sampleMem 10 0 3 a = sampleMem a) :=
  memcpy_spec sampleMem 10 0 3 (by decide) (by decide)

theorem strncpyLoop_spec :
    ∀ (m : Nat) (mem : Mem) (dst src n : Nat),
      (∀ i, i < n → mem (src + i) ≠ 0) → mem (src + n) = 0 →
      (dst ≤ src ∨ src + n + 1 ≤ dst) →
      ∀ a, strncpyLoop m mem dst src a =
        if dst ≤ a ∧ a < dst + min m (n + 1) then mem (src + (a - dst)) else mem a := by
  intro m
  induction m with
  | zero =>
    intro mem dst src n _ _ _ a
    have : ¬ (dst ≤ a ∧ a < dst + min 0 (n + 1)) := by omega
    rw [strncpyLoop, if_neg this]
  | succ m ih =>
    intro mem dst src n hnz hz hsep a
    rw [strncpyLoop]
    by_cases hc : mem src = 0
    · have hn : n = 0 := by
        by_contra h
        exact hnz 0 (by omega) hc
      subst hn
      rw [if_pos hc]
      simp only [storeByte_apply]
      split_ifs <;> first | rfl | (exfalso; omega) | (congr 1; omega)
    · obtain ⟨k, rfl⟩ : ∃ k, n = k + 1 := by
        refine ⟨n - 1, ?_⟩
        have : n ≠ 0 := by
          intro h
          subst h
          exact hc hz
        omega
      rw [if_neg hc]
      have hnz1 : ∀ i, i < k → storeByte mem dst (mem src) (src + 1 + i) ≠ 0 := by
        intro i hi
        rw [storeByte_apply, if_neg (by omega)]
        have := hnz (i + 1) (by omega)
        rwa [show src + (i + 1) = src + 1 + i by omega] at this
      have hz1 : storeByte mem dst (mem src) (src + 1 + k) = 0 := by
        rw [storeByte_apply, if_neg (by omega)]
        rwa [show src + (k + 1) = src + 1 + k by omega] at hz
      rw [ih (storeByte mem dst (mem src)) (dst + 1) (src + 1) k hnz1 hz1 (by omega)]
      simp only [storeByte_apply]
      split_ifs <;> first | rfl | (exfalso; omega) | (congr 1; omega)

/-- C17, as amended: for a NUL-terminated `src` of length `n`, a 32-bit `maxChars` and a
destination that starts at or before `src` or past the terminator of `src` (as is the
case whenever the two regions do not overlap), `D_strncpy(dst, src, maxChars)` writes
exactly the `k = min(maxChars, n + 1)` characters `dst[0 .. k - 1]`, with
`dst[i] = src[i]` for every `i < k`, and no other byte. -/
theorem strncpy_spec (mem : Mem) (dst src maxChars n : Nat) (hmax : maxChars < 4294967296)
    (hnz : ∀ i, i < n → mem (src + i) ≠ 0) (hz : mem (src + n) = 0)
    (hsep : dst ≤ src ∨ src + n + 1 ≤ dst) :
    (∀ i, i < min maxChars (n + 1) → D_strncpy mem dst src maxChars (dst + i) = mem (src + i)) ∧
    (∀ a, ¬ (dst ≤ a ∧ a < dst + min maxChars (n + 1)) →
      D_strncpy mem dst src maxChars a = mem a) := by
  have hu : u32 maxChars = maxChars := Nat.mod_eq_of_lt hmax
  have key := strncpyLoop_spec maxChars mem dst src n hnz hz hsep
  unfold D_strncpy
  rw [hu]
  constructor
  · intro i hi
    rw [key, if_pos (by omega), Nat.add_sub_cancel_left]
  · intro a ha
    rw [key, if_neg ha]

/-- Witness for `strncpy_spec`: the string `AB` at address 0 copied to address 10 with
`maxChars = 5`. -/
theorem strncpy_spec_witness :
    (∀ i, i < min 5 (2 + 1) → D_strncpy sampleMem 10 0 5 (10 + i) = sampleMem (0 + i)) ∧
    (∀ a, ¬ (10 ≤ a ∧ a < 10 + min 5 (2 + 1)) → D_strncpy sampleMem 10 0 5 a = sampleMem a) :=
  strncpy_spec sampleMem 10 0 5 2 (by decide) (by decide) (by decide) (by decide)

/-- C17, counterexample to the claim as stated: the string `AB` of length 2 lies at
address 0 and `dst` is address 1, inside it.  With `maxChars = 5` the claim allows
`min(5, 3) = 3` characters to be written, but the copy overwrites the terminator before
reading it and goes on, so that the byte at `dst + 3` is written too. -/
theorem strncpy_overlap_counterexample :
    (∀ i, i < 2 → sampleMem (0 + i) ≠ 0) ∧ sampleMem (0 + 2) = 0 ∧
    ¬ ((∀ i, i < min 5 (2 + 1) → D_strncpy sampleMem 1 0 5 (1 + i) = sampleMem (0 + i)) ∧
       (∀ a, ¬ (1 ≤ a ∧ a < 1 + min 5 (2 + 1)) →
         D_strncpy sampleMem 1 0 5 a = sampleMem a)) := by
  refine ⟨by decide, by decide, ?_⟩
  rintro ⟨_, h⟩
  have h4 := h 4 (by decide)
  revert h4
  decide

/-! ## Upper case conversion -/

theorem upperChar_ne_zero (c : Nat) (h : c ≠ 0) : upperChar c ≠ 0 := by
  unfold upperChar
  split_ifs <;> omega

theorem upperChar_not_lower (c : Nat) : ¬ (97 ≤ upperChar c ∧ upperChar c ≤ 122) := by
  unfold upperChar
  split_ifs <;> omega

theorem strupr_eq_map (s rest : List Nat) (hs : ∀ c ∈ s, c ≠ 0) :
    D_strupr (s ++ 0 :: rest) = s.map upperChar ++ 0 :: rest := by
  induction s with
  | nil => simp [D_strupr]
  | cons c t ih =>
    have hc : c ≠ 0 := hs c (List.mem_cons_self _ _)
    have ht : ∀ d ∈ t, d ≠ 0 := fun d hd => hs d (List.mem_cons_of_mem _ hd)
    rw [List.cons_append, D_strupr, if_pos hc, ih ht]
    rfl

theorem strlen_append_zero (s rest : List Nat) (hs : ∀ c ∈ s, c ≠ 0) :
    strlen (s ++ 0 :: rest) = s.length := by
  induction s with
  | nil => simp [strlen]
  | cons c t ih =>
    have hc : c ≠ 0 := hs c (List.mem_cons_self _ _)
    have ht : ∀ d ∈ t, d ≠ 0 := fun d hd => hs d (List.mem_cons_of_mem _ hd)
    rw [List.cons_append, strlen, if_pos hc, ih ht]
    rfl

theorem getD_map_append (f : Nat → Nat) (s rest : List Nat) :
    ∀ i, i < s.length → (s.map f ++ rest).getD i 0 = f (s.getD i 0) := by
  induction s with
  | nil =>
    intro i hi
    simp at hi
  | cons c t ih =>
    intro i hi
    cases i with
    | zero => rfl
    | succ j =>
      have hj : j < t.length := by simpa using hi
      simpa using ih j hj

/-- C18: for a string `s` (its characters, none of which is the terminator, followed by
the terminator and any further bytes), after `D_strupr` the string has the same length,
the bytes from the terminator on are untouched, every character `s[i]` in `'a'..'z'`
has become `s[i] - 32` and every other character is unchanged, so that no lower case
letter remains. -/
theorem strupr_spec (s rest : List Nat) (hs : ∀ c ∈ s, c ≠ 0) :
    D_strupr (s ++ 0 :: rest) = s.map upperChar ++ 0 :: rest ∧
    (strlen (D_strupr (s ++ 0 :: rest)) = s.length ∧ strlen (s ++ 0 :: rest) = s.length) ∧
    (∀ i, i < s.length →
      (D_strupr (s ++ 0 :: rest)).getD i 0 =
        if 97 ≤ s.getD i 0 ∧ s.getD i 0 ≤ 122 then s.getD i 0 - 32 else s.getD i 0) ∧
    (∀ i, i < s.length →
      ¬ (97 ≤ (D_strupr (s ++ 0 :: rest)).getD i 0 ∧
        (D_strupr (s ++ 0 :: rest)).getD i 0 ≤ 122)) := by
  have e := strupr_eq_map s rest hs
  have hm : ∀ c ∈ s.map upperChar, c ≠ 0 := by
    intro c hc
    obtain ⟨d, hd, rfl⟩ := List.mem_map.1 hc
    exact upperChar_ne_zero d (hs d hd)
  refine ⟨e, ⟨?_, strlen_append_zero s rest hs⟩, ?_, ?_⟩
  · rw [e, strlen_append_zero _ rest hm, List.length_map]
  · intro i hi
    rw [e, getD_map_append upperChar s _ i hi]
    rfl
  · intro i hi
    rw [e, getD_map_append upperChar s _ i hi]
    exact upperChar_not_lower _

/-- Witness for `strupr_spec`: the string `aZ{b` followed by its terminator and one more
byte. -/
theorem strupr_spec_witness :
    D_strupr ([97, 90, 123, 98] ++ 0 :: [99]) = [97, 90, 123, 98].map upperChar ++ 0 :: [99] ∧
    D_strupr ([97, 90, 123, 98] ++ 0 :: [99]) = [65, 90, 123, 66, 0, 99] :=
  ⟨(strupr_spec [97, 90, 123, 98] [99] (by decide)).1, by decide⟩

/-! ## Long and short game ticks under PAL timings -/

theorem toInt32_of_range (x : Int) (h1 : -2147483648 ≤ x) (h2 : x < 2147483648) :
    toInt32 x = x := by
  unfold toInt32
  omega

theorem runTicks_succ (settings : Settings) (shift : Nat) (st : TickState) (n : Nat) :
    runTicks settings shift st (n + 1) =
      advanceGameTick settings shift 2 (runTicks settings shift st n) := rfl

theorem advanceGameTick_pal (settings : Settings)
    (hv : D_GameTickDurationVaries settings = true) (shift : Nat) (st : TickState)
    (ht : 0 ≤ st.gTicCon) (ht2 : st.gTicCon + 2 < 2147483648)
    (hg : 0 ≤ st.gGameTic) (hg2 : st.gGameTic + 1 < 2147483648) :
    advanceGameTick settings shift 2 st =
      if st.gLastTgtGameTicCount < (st.gTicCon + 2) / 3 then
        { gTicCon := st.gTicCon + 2
          gLastTgtGameTicCount := (st.gTicCon + 2) / 3
          gGameTic := st.gGameTic + 1
          gbIsLongGameTick := decide ((st.gTicCon + 2) % 3 = 0) }
      else { st with gTicCon := st.gTicCon + 2 } := by
  have hpal : settings.bUsePalTimings = true := by
    unfold D_GameTickDurationVaries at hv
    exact (Bool.and_eq_true _ _ ▸ hv).1
  have w1 : toInt32 (st.gTicCon + 2) = st.gTicCon + 2 :=
    toInt32_of_range _ (by omega) ht2
  have w2 : toInt32 (st.gGameTic + 1) = st.gGameTic + 1 :=
    toInt32_of_range _ (by omega) hg2
  have e1 : Int.tdiv (st.gTicCon + 2) 3 = (st.gTicCon + 2) / 3 :=
    Int.tdiv_eq_ediv (by omega) (by norm_num)
  have e2 : Int.tmod (st.gTicCon + 2) 3 = (st.gTicCon + 2) % 3 :=
    Int.tmod_eq_emod (by omega) (by norm_num)
  unfold advanceGameTick D_UpdateIsLongGameTick
  simp only [hpal, hv, if_true, w1, w2, e1, e2]

/-- While `gTicCon` fits its 32 bits, that is up to pass `1073741823`, the timing
globals after `n` passes have a closed form. -/
theorem runTicks_closed (settings : Settings)
    (hv : D_GameTickDurationVaries settings = true) (shift : Nat) (st : TickState) (n : Nat)
    (hn : n ≤ 1073741823) :
    (runTicks settings shift st n).gTicCon = 2 * (n : Int) ∧
    (runTicks settings shift st n).gLastTgtGameTicCount = 2 * (n : Int) / 3 ∧
    (runTicks settings shift st n).gGameTic = 2 * (n : Int) / 3 ∧
    (runTicks settings shift st n).gbIsLongGameTick = decide (n % 3 ≠ 2) := by
  induction n with
  | zero =>
    simp [runTicks, miniLoopReset, D_UpdateIsLongGameTick, hv]
  | succ n ih =>
    obtain ⟨h1, h2, h3, h4⟩ := ih (by omega)
    rw [runTicks_succ, advanceGameTick_pal settings hv shift _ (by omega) (by omega)
      (by omega) (by omega), h1, h2]
    have h3c : n % 3 = 0 ∨ n % 3 = 1 ∨ n % 3 = 2 := by omega
    by_cases hc : 2 * (n : Int) / 3 < (2 * (n : Int) + 2) / 3
    · rw [if_pos hc]
      simp only [h3]
      refine ⟨by push_cast; ring, by push_cast; omega, by push_cast; omega, ?_⟩
      rw [decide_eq_decide]
      rcases h3c with h | h | h <;> omega
    · rw [if_neg hc]
      simp only [h1, h2, h3, h4]
      refine ⟨by push_cast; ring, by push_cast; omega, by push_cast; omega, ?_⟩
      rw [decide_eq_decide]
      rcases h3c with h | h | h <;> omega

/-- C19, as amended: with PAL timings and no demo timings, `gTicCon` reset to 0 and every
pass adding 2 elapsed vblanks, at every pass `n` below `1073741823` that starts a game
tick (the reset, or a pass that increments `gGameTic`) `gTicCon` is `2 n` and the flag
set by `D_UpdateIsLongGameTick` is true exactly when `gGameTic` is not incremented by the
next pass and is incremented by the one after (4 vblanks later), and false exactly when
it is incremented by the next pass (2 vblanks later); the game tick that follows carries
the opposite flag.  The bound keeps `gTicCon` within its 32 bits until the next game
tick has started. -/
theorem long_tick_flag_spec (settings : Settings)
    (hv : D_GameTickDurationVaries settings = true) (shift : Nat) (st : TickState) (n : Nat)
    (hn : n < 1073741823) (hstart : startsGameTick settings shift st n) :
    (runTicks settings shift st n).gTicCon = 2 * (n : Int) ∧
    ((runTicks settings shift st n).gbIsLongGameTick = true ↔
      ((runTicks settings shift st (n + 1)).gGameTic = (runTicks settings shift st n).gGameTic ∧
        (runTicks settings shift st (n + 2)).gGameTic =
          (runTicks settings shift st n).gGameTic + 1)) ∧
    ((runTicks settings shift st n).gbIsLongGameTick = false ↔
      (runTicks settings shift st (n + 1)).gGameTic =
        (runTicks settings shift st n).gGameTic + 1) ∧
    ((runTicks settings shift st n).gbIsLongGameTick = true →
      startsGameTick settings shift st (n + 2) ∧
        (runTicks settings shift st (n + 2)).gbIsLongGameTick = false) ∧
    ((runTicks settings shift st n).gbIsLongGameTick = false →
      startsGameTick settings shift st (n + 1) ∧
        (runTicks settings shift st (n + 1)).gbIsLongGameTick = true) := by
  obtain ⟨a1, _, a3, a4⟩ := runTicks_closed settings hv shift st n (by omega)
  obtain ⟨_, _, b3, b4⟩ := runTicks_closed settings hv shift st (n + 1) (by omega)
  obtain ⟨_, _, d3, _⟩ := runTicks_closed settings hv shift st (n - 1) (by omega)
  have hmod : n % 3 = 0 ∨ n % 3 = 2 := by
    unfold startsGameTick at hstart
    rw [a3, d3] at hstart
    have h3c : n % 3 = 0 ∨ n % 3 = 1 ∨ n % 3 = 2 := by omega
    rcases hstart with h | h
    · omega
    · rcases h3c with h' | h' | h' <;> omega
  unfold startsGameTick
  simp only [Nat.add_sub_cancel]
  rcases hmod with h | h
  · obtain ⟨_, _, c3, c4⟩ := runTicks_closed settings hv shift st (n + 2) (by omega)
    rw [a4, b4, c4, b3, c3, a3]
    simp only [decide_eq_true_eq, decide_eq_false_iff_not, not_not]
    push_cast
    refine ⟨a1, ?_, ?_, ?_, ?_⟩
    · constructor <;> intro _ <;> omega
    · constructor <;> intro _ <;> omega
    · intro _
      exact ⟨Or.inr (by omega), by omega⟩
    · intro _
      omega
  · rw [a4, b4, b3, a3]
    simp only [decide_eq_true_eq, decide_eq_false_iff_not, not_not]
    push_cast
    refine ⟨a1, ?_, ?_, ?_, ?_⟩
    · constructor
      · intro _
        omega
      · rintro ⟨h1, _⟩
        omega
    · constructor <;> intro _ <;> omega
    · intro _
      omega
    · intro _
      exact ⟨Or.inr (by omega), by omega⟩

/-- Witness for `long_tick_flag_spec`: the game tick that starts at pass 3, when
`gTicCon` is 6. -/
theorem long_tick_flag_spec_witness :
    (runTicks palSettings 2 ⟨5, 5, 5, false⟩ 3).gTicCon = 2 * ((3 : Nat) : Int) ∧
    ((runTicks palSettings 2 ⟨5, 5, 5, false⟩ 3).gbIsLongGameTick = true ↔
      ((runTicks palSettings 2 ⟨5, 5, 5, false⟩ (3 + 1)).gGameTic =
          (runTicks palSettings 2 ⟨5, 5, 5, false⟩ 3).gGameTic ∧
        (runTicks palSettings 2 ⟨5, 5, 5, false⟩ (3 + 2)).gGameTic =
          (runTicks palSettings 2 ⟨5, 5, 5, false⟩ 3).gGameTic + 1)) :=
  have h := long_tick_flag_spec palSettings (by decide) 2 ⟨5, 5, 5, false⟩ 3 (by decide)
    (Or.inr (by decide))
  ⟨h.1, h.2.1⟩

/-- Two passes from the last state in which `gTicCon` fits: the 32-bit addition leaves a
negative `gTicCon`, whose third is below the recorded target, so that `gGameTic` stays
as it is. -/
theorem overflow_two_passes (s : TickState) (h1 : s.gTicCon = 2147483646)
    (h2 : s.gLastTgtGameTicCount = 715827882) (h3 : s.gGameTic = 715827882) :
    (advanceGameTick palSettings 2 2 s).gGameTic = 715827882 ∧
    (advanceGameTick palSettings 2 2 (advanceGameTick palSettings 2 2 s)).gGameTic =
      715827882 := by
  obtain ⟨t, l, g, f⟩ := s
  simp only at h1 h2 h3
  subst h1 h2 h3
  cases f <;> decide

/-- C19, counterexample to the claim as stated: the pass `1073741823` starts a game tick
with `gTicCon = 2147483646` and a true flag, but the next addition of 2 vblanks does not
fit the `int32_t` counter and `gGameTic` is not incremented two passes (4 vblanks)
later. -/
theorem long_tick_overflow_counterexample :
    startsGameTick palSettings 2 ⟨5, 5, 5, false⟩ 1073741823 ∧
    ¬ ((runTicks palSettings 2 ⟨5, 5, 5, false⟩ 1073741823).gbIsLongGameTick = true ↔
      ((runTicks palSettings 2 ⟨5, 5, 5, false⟩ (1073741823 + 1)).gGameTic =
          (runTicks palSettings 2 ⟨5, 5, 5, false⟩ 1073741823).gGameTic ∧
        (runTicks palSettings 2 ⟨5, 5, 5, false⟩ (1073741823 + 2)).gGameTic =
          (runTicks palSettings 2 ⟨5, 5, 5, false⟩ 1073741823).gGameTic + 1)) := by
  have hv : D_GameTickDurationVaries palSettings = true := by decide
  have e0 : (1073741823 + 2 : Nat) = 1073741823 + 1 + 1 := rfl
  rw [e0]
  obtain ⟨a1, a2, a3, a4⟩ :=
    runTicks_closed palSettings hv 2 ⟨5, 5, 5, false⟩ 1073741823 (le_refl _)
  obtain ⟨_, _, d3, _⟩ :=
    runTicks_closed palSettings hv 2 ⟨5, 5, 5, false⟩ (1073741823 - 1) (by omega)
  have e1 : (2 * ((1073741823 : Nat) : Int)) = 2147483646 := by norm_num
  have e2 : (2 * ((1073741823 : Nat) : Int)) / 3 = 715827882 := by norm_num
  have e3 : (2 * (((1073741823 - 1 : Nat)) : Int)) / 3 = 715827881 := by norm_num
  have e4 : decide (1073741823 % 3 ≠ 2) = true := by decide
  rw [e1] at a1
  rw [e2] at a2 a3
  rw [e3] at d3
  rw [e4] at a4
  obtain ⟨o1, o2⟩ := overflow_two_passes _ a1 a2 a3
  constructor
  · right
    rw [a3, d3]
    norm_num
  · rw [runTicks_succ _ _ _ (1073741823 + 1), runTicks_succ _ _ _ 1073741823, o1, o2, a3, a4]
    intro h
    have := (h.1 rfl).2
    norm_num at this

end Doom

namespace Gpu

/-! ## Setting the colour channels -/

theorem and_0x8000 (n : Nat) : n &&& 0x8000 = 0 ∨ n &&& 0x8000 = 0x8000 := by
  have h : (0x8000 : Nat) = 2 ^ 15 := by norm_num
  rw [h]
  cases hb : n.testBit 15
  · left
    apply Nat.eq_of_testBit_eq
    intro i
    rw [Nat.testBit_and, Nat.testBit_two_pow, Nat.zero_testBit]
    by_cases hi : 15 = i
    · subst hi
      rw [hb]
      rfl
    · simp [hi]
  · right
    apply Nat.eq_of_testBit_eq
    intro i
    rw [Nat.testBit_and, Nat.testBit_two_pow]
    by_cases hi : 15 = i
    · subst hi
      rw [hb]
      rfl
    · simp [hi]

theorem setRGB_bits (c : Color16) (r g b : Nat) (hr : r ≤ 31) (hg : g ≤ 31) (hb : b ≤ 31) :
    (c.setRGB r g b).bits = (c.bits &&& 0x8000) + (r + g * 32 + b * 1024) := by
  simp only [Color16.setRGB, u16]
  rw [pack3_eq_sum r g b hr hg]
  rcases and_0x8000 c.bits with h | h
  · rw [h]
    simp only [Nat.zero_mod, Nat.zero_or, Nat.zero_add]
    omega
  · rw [h]
    have e : 32768 % 65536 ||| (r + g * 32 + b * 1024) =
        (r + g * 32 + b * 1024) ||| (1 <<< 15) := by
      rw [Nat.or_comm]
      rfl
    rw [e, or_shiftLeft_eq_add _ 1 15 (by norm_num; omega)]
    norm_num
    omega

/-- C21: for every `Color16` `c`, whatever its previous channels and flag, and every
`r, g, b` in `[0, 31]`, after `c.setRGB(r, g, b)` the channels read back as `getR() = r`,
`getG() = g` and `getB() = b`; the word is the kept top bit plus
`r + 32 g + 1024 b`. -/
theorem setRGB_spec (c : Color16) (r g b : Nat) (hr : r ≤ 31) (hg : g ≤ 31) (hb : b ≤ 31) :
    (c.setRGB r g b).getR = r ∧ (c.setRGB r g b).getG = g ∧ (c.setRGB r g b).getB = b ∧
    (c.setRGB r g b).bits = (c.bits &&& 0x8000) + (r + g * 32 + b * 1024) := by
  have hbits := setRGB_bits c r g b hr hg hb
  rw [getR_eq, getG_eq, getB_eq, hbits]
  rcases and_0x8000 c.bits with h | h <;> rw [h] <;>
    exact ⟨by omega, by omega, by omega, rfl⟩

/-- Witness for `setRGB_spec`: the colour `0xFFFF`, all channels and the flag set, given
the channels `(3, 0, 21)`. -/
theorem setRGB_spec_witness :
    ((Color16.mk 65535).setRGB 3 0 21).getR = 3 ∧ ((Color16.mk 65535).setRGB 3 0 21).getG = 0 ∧
    ((Color16.mk 65535).setRGB 3 0 21).getB = 21 ∧
    ((Color16.mk 65535).setRGB 3 0 21).bits =
      ((Color16.mk 65535).bits &&& 0x8000) + (3 + 0 * 32 + 21 * 1024) :=
  setRGB_spec (Color16.mk 65535) 3 0 21 (by decide) (by decide) (by decide)

end Gpu
